import Mathlib

/-!
Verification development for the meeting-summarizer backend.

The definitions below are shallow embeddings of the backend source:
  app/services/summarization.py  (fence extraction and JSON parse of the
                                  provider response)
  app/services/transcription.py  (model cache and transcript assembly)
  app/db.py                      (persistent record store)
  app/main.py                    (pipeline orchestration: synchronous run,
                                  async job run, re-summarization)
Python strings are modelled as lists of characters; Python str.find,
slicing with a possibly negative stop index, str.strip, and substring
containment are modelled by the py* functions below.
-/

set_option maxRecDepth 10000

namespace MeetingSummarizer

/-- Whitespace for Python str.strip: the six ASCII whitespace characters.
Non-ASCII whitespace never occurs in the inputs modelled here. -/
def pyIsSpace (c : Char) : Bool :=
  c = ' ' || c = '\t' || c = '\n' || c = '\x0d' || c = '\x0b' || c = '\x0c'

/-- Python str.strip(): drop whitespace from both ends. -/
def pyStrip (cs : List Char) : List Char :=
  ((cs.dropWhile pyIsSpace).reverse.dropWhile pyIsSpace).reverse

/-- First index at or after the current position where sub occurs in the
remaining list, given the index already consumed. -/
def findSubAux (sub : List Char) : List Char → Nat → Option Nat
  | [], i => if sub.isEmpty then some i else none
  | c :: cs, i =>
    if sub.isPrefixOf (c :: cs) then some i else findSubAux sub cs (i + 1)

/-- Python str.find(sub, start): lowest index at or above start where sub
occurs, and -1 when sub does not occur there. -/
def pyFindFrom (hay sub : List Char) (start : Nat) : Int :=
  match findSubAux sub (hay.drop start) 0 with
  | some j => (start + j : Nat)
  | none => -1

/-- Python substring containment, sub in hay. -/
def containsSub (hay sub : List Char) : Bool :=
  (findSubAux sub hay 0).isSome

/-- Python slice hay[start:stop] with a nonnegative start and a stop that
may be negative (counted from the end, as in text[a:-1]). -/
def pySlice (cs : List Char) (start : Nat) (stop : Int) : List Char :=
  let stopN : Nat := (if stop < 0 then (cs.length : Int) + stop else stop).toNat
  (cs.take stopN).drop start

/-- The seven characters of the tagged fence opener. -/
def tagFence : List Char := "```json".data

/-- The three characters of a plain fence. -/
def fence : List Char := "```".data

/-- Tagged branch of the extraction in summarize_meeting: content between
the first occurrence of the tagged fence opener and the next plain fence,
stripped. When no closing fence follows, the code slices with stop -1 and
so drops the final character. -/
def taggedExtract (cs : List Char) : List Char :=
  let js : Nat := (pyFindFrom cs tagFence 0).toNat + 7
  let je : Int := pyFindFrom cs fence js
  pyStrip (pySlice cs js je)

/-- Untagged branch of the extraction in summarize_meeting: content after
the first plain fence up to the next plain fence, or to the end of the
text when no closing fence follows, stripped. -/
def untaggedExtract (cs : List Char) : List Char :=
  let js : Nat := (pyFindFrom cs fence 0).toNat + 3
  let je0 : Int := pyFindFrom cs fence js
  let je : Int := if je0 = -1 then (cs.length : Int) else je0
  pyStrip (pySlice cs js je)

/-- The fence-stripping logic of summarize_meeting, lines 34-43 of
app/services/summarization.py: commit to the tagged branch when the text
contains the tagged opener anywhere, else to the untagged branch when it
contains a plain fence anywhere, else keep the raw text. -/
def extractResponse (cs : List Char) : List Char :=
  if containsSub cs tagFence then taggedExtract cs
  else if containsSub cs fence then untaggedExtract cs
  else cs

/-!
JSON values, a parser modelling Python json.loads, and an encoder
modelling Python json.dumps with its default separators.  The parser
uses an explicit fuel argument (instantiated with the input length plus
one at the top level) and accepts the standard JSON grammar; the sole
modelling restrictions are that escaped surrogate code points are
rejected instead of producing Python lone-surrogate strings, and that
the encoder leaves characters at or above U+0020 unescaped in the style
of dumps with ensure_ascii disabled, which does not affect any property
proved here.  Number literals are kept as raw lexemes; the backend never
serializes numbers.
-/

mutual

inductive JVal : Type where
  | null : JVal
  | bool : Bool → JVal
  | num : List Char → JVal
  | str : String → JVal
  | arr : JArr → JVal
  | obj : JObj → JVal

inductive JArr : Type where
  | nil : JArr
  | cons : JVal → JArr → JArr

inductive JObj : Type where
  | nil : JObj
  | cons : String → JVal → JObj → JObj

end

/-- JSON document whitespace accepted by json.loads. -/
def jsonWs (c : Char) : Bool :=
  c = ' ' || c = '\t' || c = '\n' || c = '\x0d'

/-- Skip JSON whitespace. -/
def skipWs (cs : List Char) : List Char := cs.dropWhile jsonWs

/-- Decimal digit test. -/
def digitB (c : Char) : Bool := 48 ≤ c.toNat && c.toNat ≤ 57

/-- Value of one hexadecimal digit. -/
def hexDigitVal (c : Char) : Option Nat :=
  if 48 ≤ c.toNat && c.toNat ≤ 57 then some (c.toNat - 48)
  else if 97 ≤ c.toNat && c.toNat ≤ 102 then some (c.toNat - 87)
  else if 65 ≤ c.toNat && c.toNat ≤ 70 then some (c.toNat - 55)
  else none

/-- Short escapes accepted after a backslash in a JSON string. -/
def escChar (e : Char) : Option Char :=
  if e = '"' then some '"'
  else if e = '\\' then some '\\'
  else if e = '/' then some '/'
  else if e = 'b' then some '\x08'
  else if e = 'f' then some '\x0c'
  else if e = 'n' then some '\n'
  else if e = 'r' then some '\x0d'
  else if e = 't' then some '\t'
  else none

/-- Body of a JSON string after the opening quote: returns the decoded
characters and the remainder after the closing quote.  The fuel counts
recursion steps; every caller passes the input length plus one, which a
consumption of at least one character per step can never exhaust. -/
def parseStrBody : Nat → List Char → Option (List Char × List Char)
  | 0, _ => none
  | _ + 1, [] => none
  | fuel + 1, c :: cs =>
    if c = '"' then some ([], cs)
    else if c = '\\' then
      match cs with
      | [] => none
      | e :: cs2 =>
        if e = 'u' then
          match cs2 with
          | a :: b :: c2 :: d :: cs3 =>
            match hexDigitVal a, hexDigitVal b, hexDigitVal c2, hexDigitVal d with
            | some ha, some hb, some hc, some hd =>
              let n := ((ha * 16 + hb) * 16 + hc) * 16 + hd
              if n < 0xd800 || 0xe000 ≤ n then
                match parseStrBody fuel cs3 with
                | some (s, rest) => some (Char.ofNat n :: s, rest)
                | none => none
              else none
            | _, _, _, _ => none
          | _ => none
        else
          match escChar e with
          | some ce =>
            match parseStrBody fuel cs2 with
            | some (s, rest) => some (ce :: s, rest)
            | none => none
          | none => none
    else if c.toNat < 32 then none
    else
      match parseStrBody fuel cs with
      | some (s, rest) => some (c :: s, rest)
      | none => none

/-- JSON number lexeme: sign, integer part, optional fraction and
exponent, returned as the raw character span. -/
def parseNumber (cs : List Char) : Option (List Char × List Char) :=
  let signAndRest : List Char × List Char :=
    match cs with
    | '-' :: t => (['-'], t)
    | _ => ([], cs)
  let sign := signAndRest.1
  match signAndRest.2 with
  | c :: t =>
    if c = '0' then
      let (fr, r) := parseNumTail t
      some (sign ++ ['0'] ++ fr, r)
    else if digitB c then
      let ds := t.takeWhile digitB
      let t2 := t.dropWhile digitB
      let (fr, r) := parseNumTail t2
      some (sign ++ (c :: ds) ++ fr, r)
    else none
  | [] => none
where
  /-- Optional fraction and exponent after the integer part. -/
  parseNumTail (cs : List Char) : List Char × List Char :=
    let fracAndRest : List Char × List Char :=
      match cs with
      | '.' :: t =>
        let ds := t.takeWhile digitB
        if ds.isEmpty then ([], cs) else ('.' :: ds, t.dropWhile digitB)
      | _ => ([], cs)
    let afterFrac := fracAndRest.2
    let expAndRest : List Char × List Char :=
      match afterFrac with
      | e :: t =>
        if e = 'e' || e = 'E' then
          let sgnAndRest : List Char × List Char :=
            match t with
            | '+' :: u => (['+'], u)
            | '-' :: u => (['-'], u)
            | _ => ([], t)
          let ds := sgnAndRest.2.takeWhile digitB
          if ds.isEmpty then ([], afterFrac)
          else (e :: (sgnAndRest.1 ++ ds), sgnAndRest.2.dropWhile digitB)
        else ([], afterFrac)
      | [] => ([], afterFrac)
    (fracAndRest.1 ++ expAndRest.1, expAndRest.2)

mutual

/-- JSON value, modelling json.loads: leading whitespace is skipped,
then a null, boolean, string, array, object, or number is read. -/
def parseValue : Nat → List Char → Option (JVal × List Char)
  | 0, _ => none
  | fuel + 1, cs =>
    match skipWs cs with
    | [] => none
    | c :: rest =>
      if c = 'n' then
        if "ull".data.isPrefixOf rest then some (.null, rest.drop 3) else none
      else if c = 't' then
        if "rue".data.isPrefixOf rest then some (.bool true, rest.drop 3) else none
      else if c = 'f' then
        if "alse".data.isPrefixOf rest then some (.bool false, rest.drop 4) else none
      else if c = '"' then
        match parseStrBody (rest.length + 1) rest with
        | some (s, r) => some (.str (String.mk s), r)
        | none => none
      else if c = '[' then
        match skipWs rest with
        | ']' :: r2 => some (.arr .nil, r2)
        | r1 =>
          match parseItems fuel r1 with
          | some (xs, r) => some (.arr xs, r)
          | none => none
      else if c = '{' then
        match skipWs rest with
        | '}' :: r2 => some (.obj .nil, r2)
        | r1 =>
          match parseFields fuel r1 with
          | some (fs, r) => some (.obj fs, r)
          | none => none
      else if c = '-' || digitB c then
        match parseNumber (c :: rest) with
        | some (lex, r) => some (.num lex, r)
        | none => none
      else none

/-- Comma-separated array items up to the closing bracket. -/
def parseItems : Nat → List Char → Option (JArr × List Char)
  | 0, _ => none
  | fuel + 1, cs =>
    match parseValue fuel cs with
    | some (v, r) =>
      match skipWs r with
      | ']' :: r2 => some (.cons v .nil, r2)
      | ',' :: r2 =>
        match parseItems fuel r2 with
        | some (vs, r3) => some (.cons v vs, r3)
        | none => none
      | _ => none
    | none => none

/-- Comma-separated object members up to the closing brace; the input
must start at the opening quote of a key. -/
def parseFields : Nat → List Char → Option (JObj × List Char)
  | 0, _ => none
  | fuel + 1, cs =>
    match cs with
    | '"' :: r =>
      match parseStrBody (r.length + 1) r with
      | some (k, r1) =>
        match skipWs r1 with
        | ':' :: r2 =>
          match parseValue fuel r2 with
          | some (v, r3) =>
            match skipWs r3 with
            | '}' :: r4 => some (.cons (String.mk k) v .nil, r4)
            | ',' :: r4 =>
              match parseFields fuel (skipWs r4) with
              | some (fs, r5) => some (.cons (String.mk k) v fs, r5)
              | none => none
            | _ => none
          | none => none
        | _ => none
      | none => none
    | _ => none

end

/-- json.loads: parse one document and require only whitespace after it. -/
def jsonLoads (cs : List Char) : Option JVal :=
  match parseValue (cs.length + 1) cs with
  | some (v, r) => if (skipWs r).isEmpty then some v else none
  | none => none

/-- The parse stage of summarize_meeting, lines 34-45 of
app/services/summarization.py: fence extraction followed by one call of
json.loads on the single extracted text. -/
def summarizeParse (cs : List Char) : Option JVal :=
  jsonLoads (extractResponse cs)

/-- One hexadecimal digit character, lowercase, as produced by dumps. -/
def hexDigitChar (n : Nat) : Char :=
  if n < 10 then Char.ofNat (48 + n) else Char.ofNat (87 + n)

/-- Escaping of one character inside a JSON string, as json.dumps
writes it: quote and backslash escaped, control characters as short
escapes or \u00XX, everything else verbatim. -/
def encodeChar (c : Char) : List Char :=
  if c = '"' then ['\\', '"']
  else if c = '\\' then ['\\', '\\']
  else if c = '\x08' then ['\\', 'b']
  else if c = '\t' then ['\\', 't']
  else if c = '\n' then ['\\', 'n']
  else if c = '\x0c' then ['\\', 'f']
  else if c = '\x0d' then ['\\', 'r']
  else if c.toNat < 32 then
    ['\\', 'u', '0', '0', hexDigitChar (c.toNat / 16), hexDigitChar (c.toNat % 16)]
  else [c]

/-- Body of an encoded JSON string. -/
def encodeStrBody (s : List Char) : List Char :=
  s.foldr (fun c acc => encodeChar c ++ acc) []

mutual

/-- json.dumps with the default separators: comma-space between items
and members, colon-space after keys. -/
def encodeVal : JVal → List Char
  | .null => "null".data
  | .bool true => "true".data
  | .bool false => "false".data
  | .num raw => raw
  | .str s => '"' :: (encodeStrBody s.data ++ ['"'])
  | .arr .nil => "[]".data
  | .arr (.cons v vs) => '[' :: ((encodeVal v ++ encodeTailA vs) ++ [']'])
  | .obj .nil => "\x7b\x7d".data
  | .obj (.cons k v fs) =>
    '{' :: ((('"' :: (encodeStrBody k.data ++ ('"' :: ':' :: ' ' :: encodeVal v)))
      ++ encodeTailO fs) ++ ['}'])

/-- Remaining encoded array items, each preceded by comma space. -/
def encodeTailA : JArr → List Char
  | .nil => []
  | .cons v vs => ',' :: ' ' :: (encodeVal v ++ encodeTailA vs)

/-- Remaining encoded object members, each preceded by comma space. -/
def encodeTailO : JObj → List Char
  | .nil => []
  | .cons k v fs =>
    ',' :: ' ' :: ((('"' :: (encodeStrBody k.data ++ ('"' :: ':' :: ' ' :: encodeVal v)))
      ++ encodeTailO fs))

end

/-- One encoded object member, key colon space value. -/
def encodeField (k : String) (v : JVal) : List Char :=
  '"' :: (encodeStrBody k.data ++ ('"' :: ':' :: ' ' :: encodeVal v))

/-!
Size and number-freedom measures on JSON values, and the parse of an
encoded value: json.loads inverts json.dumps on number-free values.
-/

theorem hexVal_hexChar {n : Nat} (h : n < 16) : hexDigitVal (hexDigitChar n) = some n := by
  interval_cases n <;> decide

theorem encodeChar_length_pos (c : Char) : 1 ≤ (encodeChar c).length := by
  unfold encodeChar
  split_ifs <;> simp

theorem length_le_encodeStrBody (s : List Char) : s.length ≤ (encodeStrBody s).length := by
  induction s with
  | nil => simp [encodeStrBody]
  | cons c s ih =>
    have h1 : encodeStrBody (c :: s) = encodeChar c ++ encodeStrBody s := rfl
    rw [h1, List.length_append, List.length_cons]
    have := encodeChar_length_pos c
    omega

theorem parseStrBody_encode (s rest : List Char) (fuel : Nat) (hf : s.length < fuel) :
    parseStrBody fuel (encodeStrBody s ++ '"' :: rest) = some (s, rest) := by
  induction s generalizing fuel with
  | nil =>
    cases fuel with
    | zero => omega
    | succ f => rfl
  | cons c s ihs =>
    cases fuel with
    | zero => omega
    | succ f =>
      have hf2 : s.length < f := by
        rw [List.length_cons] at hf
        omega
      have ih := ihs f hf2
      have hexp : encodeStrBody (c :: s) = encodeChar c ++ encodeStrBody s := rfl
      rw [hexp, List.append_assoc]
      by_cases h1 : c = '"'
      · subst h1; rw [show encodeChar '"' = ['\\', '"'] from rfl]
        simp only [List.cons_append, List.nil_append]
        rw [parseStrBody.eq_def]; simp [escChar, ih]
      by_cases h2 : c = '\\'
      · subst h2; rw [show encodeChar '\\' = ['\\', '\\'] from rfl]
        simp only [List.cons_append, List.nil_append]
        rw [parseStrBody.eq_def]; simp [escChar, ih]
      by_cases h3 : c = '\x08'
      · subst h3; rw [show encodeChar '\x08' = ['\\', 'b'] from rfl]
        simp only [List.cons_append, List.nil_append]
        rw [parseStrBody.eq_def]; simp [escChar, ih]
      by_cases h4 : c = '\t'
      · subst h4; rw [show encodeChar '\t' = ['\\', 't'] from rfl]
        simp only [List.cons_append, List.nil_append]
        rw [parseStrBody.eq_def]; simp [escChar, ih]
      by_cases h5 : c = '\n'
      · subst h5; rw [show encodeChar '\n' = ['\\', 'n'] from rfl]
        simp only [List.cons_append, List.nil_append]
        rw [parseStrBody.eq_def]; simp [escChar, ih]
      by_cases h6 : c = '\x0c'
      · subst h6; rw [show encodeChar '\x0c' = ['\\', 'f'] from rfl]
        simp only [List.cons_append, List.nil_append]
        rw [parseStrBody.eq_def]; simp [escChar, ih]
      by_cases h7 : c = '\x0d'
      · subst h7; rw [show encodeChar '\x0d' = ['\\', 'r'] from rfl]
        simp only [List.cons_append, List.nil_append]
        rw [parseStrBody.eq_def]; simp [escChar, ih]
      by_cases h8 : c.toNat < 32
      · have he : encodeChar c =
            ['\\', 'u', '0', '0', hexDigitChar (c.toNat / 16), hexDigitChar (c.toNat % 16)] := by
          simp [encodeChar, h1, h2, h3, h4, h5, h6, h7, h8]
        rw [he]
        simp only [List.cons_append, List.nil_append]
        rw [parseStrBody.eq_def]
        simp [show hexDigitVal '0' = some 0 from by decide,
              hexVal_hexChar (show c.toNat / 16 < 16 by omega),
              hexVal_hexChar (show c.toNat % 16 < 16 by omega), ih,
              show ((0 * 16 + 0) * 16 + c.toNat / 16) * 16 + c.toNat % 16 = c.toNat by omega,
              show c.toNat < 0xd800 by omega, Char.ofNat_toNat]
        refine ⟨Or.inl (by omega), ?_⟩
        rw [show c.toNat / 16 * 16 + c.toNat % 16 = c.toNat by omega, Char.ofNat_toNat]
      · have he : encodeChar c = [c] := by
          simp [encodeChar, h1, h2, h3, h4, h5, h6, h7, h8]
        rw [he]
        simp only [List.cons_append, List.nil_append]
        rw [parseStrBody.eq_def]
        simp [h1, h2, h8, ih]
mutual

def jsize : JVal → Nat
  | .arr xs => 1 + jsizeA xs
  | .obj fs => 1 + jsizeO fs
  | _ => 1

def jsizeA : JArr → Nat
  | .nil => 0
  | .cons v vs => 1 + jsize v + jsizeA vs

def jsizeO : JObj → Nat
  | .nil => 0
  | .cons _ v fs => 1 + jsize v + jsizeO fs

end

mutual

def numFreeV : JVal → Bool
  | .num _ => false
  | .arr xs => numFreeA xs
  | .obj fs => numFreeO fs
  | _ => true

def numFreeA : JArr → Bool
  | .nil => true
  | .cons v vs => numFreeV v && numFreeA vs

def numFreeO : JObj → Bool
  | .nil => true
  | .cons _ v fs => numFreeV v && numFreeO fs

end

theorem skipWs_cons_of_not_ws {c : Char} (h : jsonWs c = false) (cs : List Char) :
    skipWs (c :: cs) = c :: cs := by
  simp [skipWs, List.dropWhile_cons, h]

theorem skipWs_cons_of_ws {c : Char} (h : jsonWs c = true) (cs : List Char) :
    skipWs (c :: cs) = skipWs cs := by
  simp [skipWs, List.dropWhile_cons, h]

/-- The first character of an encoded number-free value is never
whitespace and never a closing bracket, brace, or other delimiter. -/
theorem encodeVal_head (v : JVal) (hv : numFreeV v = true) :
    ∃ c t, encodeVal v = c :: t ∧ jsonWs c = false ∧ c ≠ ']' ∧ c ≠ '}' := by
  cases v with
  | null =>
    exact ⟨'n', "ull".data, by rfl, by decide, by decide, by decide⟩
  | bool b => cases b with
    | true =>
      exact ⟨'t', "rue".data, by rfl, by decide, by decide, by decide⟩
    | false =>
      exact ⟨'f', "alse".data, by rfl, by decide, by decide, by decide⟩
  | num raw => simp [numFreeV] at hv
  | str s =>
    exact ⟨'"', encodeStrBody s.data ++ ['"'], by rfl, by decide, by decide,
      by decide⟩
  | arr xs => cases xs with
    | nil =>
      exact ⟨'[', "]".data, by rfl, by decide, by decide, by decide⟩
    | cons v vs =>
      exact ⟨'[', (encodeVal v ++ encodeTailA vs) ++ [']'], by rfl, by decide,
        by decide, by decide⟩
  | obj fs => cases fs with
    | nil =>
      exact ⟨'{', "\x7d".data, by rfl, by decide, by decide, by decide⟩
    | cons k v fs =>
      exact ⟨'{', (encodeField k v ++ encodeTailO fs) ++ ['}'], by rfl,
        by decide, by decide, by decide⟩

theorem parseValue_cons_ws {c : Char} (h : jsonWs c = true) (fuel : Nat) (cs : List Char) :
    parseValue fuel (c :: cs) = parseValue fuel cs := by
  cases fuel with
  | zero => rw [parseValue.eq_1, parseValue.eq_1]
  | succ f =>
    rw [parseValue.eq_2, parseValue.eq_2, skipWs_cons_of_ws h]

theorem parseItems_cons_ws {c : Char} (h : jsonWs c = true) (fuel : Nat) (cs : List Char) :
    parseItems fuel (c :: cs) = parseItems fuel cs := by
  cases fuel with
  | zero => rw [parseItems.eq_1, parseItems.eq_1]
  | succ f =>
    rw [parseItems.eq_2, parseItems.eq_2, parseValue_cons_ws h]

theorem jsize_pos (v : JVal) : 1 ≤ jsize v := by
  cases v <;> simp only [jsize.eq_def] <;> omega

theorem skipWs_encodeVal (v : JVal) (hv : numFreeV v = true) (X : List Char) :
    skipWs (encodeVal v ++ X) = encodeVal v ++ X := by
  obtain ⟨c, t, hct, hcw, -, -⟩ := encodeVal_head v hv
  rw [hct, List.cons_append, skipWs_cons_of_not_ws hcw]

theorem encodeVal_null : encodeVal .null = "null".data := by rfl
theorem encodeVal_true : encodeVal (.bool true) = "true".data := by rfl
theorem encodeVal_false : encodeVal (.bool false) = "false".data := by rfl
theorem encodeVal_str (s : String) :
    encodeVal (.str s) = '"' :: (encodeStrBody s.data ++ ['"']) := by rfl
theorem encodeVal_arr_nil : encodeVal (.arr .nil) = "[]".data := by rfl
theorem encodeVal_arr_cons (v : JVal) (vs : JArr) :
    encodeVal (.arr (.cons v vs)) = '[' :: ((encodeVal v ++ encodeTailA vs) ++ [']']) := by
  rfl
theorem encodeVal_obj_nil : encodeVal (.obj .nil) = "\x7b\x7d".data := by rfl
theorem encodeVal_obj_cons (k : String) (v : JVal) (fs : JObj) :
    encodeVal (.obj (.cons k v fs)) = '{' :: ((encodeField k v ++ encodeTailO fs) ++ ['}']) := by
  rfl
theorem encodeField_def (k : String) (v : JVal) :
    encodeField k v = '"' :: (encodeStrBody k.data ++ ('"' :: ':' :: ' ' :: encodeVal v)) := by
  rfl
theorem encodeTailA_nil : encodeTailA .nil = [] := by rfl
theorem encodeTailA_cons (v : JVal) (vs : JArr) :
    encodeTailA (.cons v vs) = ',' :: ' ' :: (encodeVal v ++ encodeTailA vs) := by
  rfl
theorem encodeTailO_nil : encodeTailO .nil = [] := by rfl
theorem encodeTailO_cons (k : String) (v : JVal) (fs : JObj) :
    encodeTailO (.cons k v fs) = ',' :: ' ' :: (encodeField k v ++ encodeTailO fs) := by
  rfl

theorem jsize_arr_cons (v : JVal) (vs : JArr) :
    jsize (.arr (.cons v vs)) = 2 + jsize v + jsizeA vs := by
  rw [jsize.eq_def]; simp only []; rw [jsizeA.eq_def]; simp only []; omega

theorem jsize_obj_cons (k : String) (v : JVal) (fs : JObj) :
    jsize (.obj (.cons k v fs)) = 2 + jsize v + jsizeO fs := by
  rw [jsize.eq_def]; simp only []; rw [jsizeO.eq_def]; simp only []; omega

theorem jsizeA_cons (v : JVal) (vs : JArr) :
    jsizeA (.cons v vs) = 1 + jsize v + jsizeA vs := by
  rw [jsizeA.eq_def]

theorem jsizeO_cons (k : String) (v : JVal) (fs : JObj) :
    jsizeO (.cons k v fs) = 1 + jsize v + jsizeO fs := by
  rw [jsizeO.eq_def]

theorem jsizeA_nil : jsizeA .nil = 0 := by rw [jsizeA.eq_def]

theorem jsizeO_nil : jsizeO .nil = 0 := by rw [jsizeO.eq_def]

theorem numFreeV_arr_cons (v : JVal) (vs : JArr) :
    numFreeV (.arr (.cons v vs)) = (numFreeV v && numFreeA vs) := by
  rw [numFreeV.eq_def]; simp only []; rw [numFreeA.eq_def]

theorem numFreeV_obj_cons (k : String) (v : JVal) (fs : JObj) :
    numFreeV (.obj (.cons k v fs)) = (numFreeV v && numFreeO fs) := by
  rw [numFreeV.eq_def]; simp only []; rw [numFreeO.eq_def]

theorem numFreeA_cons (v : JVal) (vs : JArr) :
    numFreeA (.cons v vs) = (numFreeV v && numFreeA vs) := by
  rw [numFreeA.eq_def]

theorem numFreeO_cons (k : String) (v : JVal) (fs : JObj) :
    numFreeO (.cons k v fs) = (numFreeV v && numFreeO fs) := by
  rw [numFreeO.eq_def]

/-- The parser inverts the encoder at every fuel level that dominates the
value size: the value reading, array tail, and object tail cases proved
jointly by induction on the fuel. -/
theorem parse_encode_all (fuel : Nat) :
    (∀ v rest, numFreeV v = true → jsize v ≤ fuel →
      parseValue fuel (encodeVal v ++ rest) = some (v, rest)) ∧
    (∀ v vs rest, numFreeV v = true → numFreeA vs = true →
      1 + jsize v + jsizeA vs ≤ fuel →
      parseItems fuel (encodeVal v ++ (encodeTailA vs ++ ']' :: rest)) =
        some (.cons v vs, rest)) ∧
    (∀ k v fs rest, numFreeV v = true → numFreeO fs = true →
      1 + jsize v + jsizeO fs ≤ fuel →
      parseFields fuel (encodeField k v ++ (encodeTailO fs ++ '}' :: rest)) =
        some (.cons k v fs, rest)) := by
  induction fuel with
  | zero =>
    refine ⟨fun v rest hv hf => absurd hf ?_, fun v vs rest hv hvs hf => absurd hf ?_,
      fun k v fs rest hv hfs hf => absurd hf ?_⟩
    · have := jsize_pos v; omega
    · omega
    · omega
  | succ f ih =>
    obtain ⟨ihV, ihI, ihF⟩ := ih
    refine ⟨?_, ?_, ?_⟩
    · intro v rest hv hf
      cases v with
      | null =>
        rw [encodeVal_null]
        show parseValue (f + 1) ('n' :: 'u' :: 'l' :: 'l' :: rest) = _
        rw [parseValue.eq_2, skipWs_cons_of_not_ws (by decide)]
        simp [List.isPrefixOf]
      | bool b =>
        cases b with
        | true =>
          rw [encodeVal_true]
          show parseValue (f + 1) ('t' :: 'r' :: 'u' :: 'e' :: rest) = _
          rw [parseValue.eq_2, skipWs_cons_of_not_ws (by decide)]
          simp [List.isPrefixOf]
        | false =>
          rw [encodeVal_false]
          show parseValue (f + 1) ('f' :: 'a' :: 'l' :: 's' :: 'e' :: rest) = _
          rw [parseValue.eq_2, skipWs_cons_of_not_ws (by decide)]
          simp [List.isPrefixOf]
      | num raw =>
        rw [numFreeV.eq_def] at hv
        simp only [] at hv
        exact Bool.noConfusion hv
      | str s =>
        rw [encodeVal_str, List.cons_append, List.append_assoc]
        rw [parseValue.eq_2, skipWs_cons_of_not_ws (by decide)]
        have hsb := parseStrBody_encode s.data rest
          ((encodeStrBody s.data).length + (rest.length + 1) + 1)
          (by have := length_le_encodeStrBody s.data; omega)
        simp [hsb]
      | arr xs =>
        cases xs with
        | nil =>
          rw [encodeVal_arr_nil]
          show parseValue (f + 1) ('[' :: ']' :: rest) = _
          rw [parseValue.eq_2, skipWs_cons_of_not_ws (by decide)]
          simp [skipWs_cons_of_not_ws (show jsonWs ']' = false by decide)]
        | cons v vs =>
          rw [numFreeV_arr_cons, Bool.and_eq_true] at hv
          rw [jsize_arr_cons] at hf
          rw [encodeVal_arr_cons]
          simp only [List.cons_append, List.nil_append, List.append_assoc]
          rw [parseValue.eq_2, skipWs_cons_of_not_ws (by decide)]
          simp only [reduceIte, Char.reduceEq, reduceCtorEq]
          rw [skipWs_encodeVal v hv.1]
          split
          · rename_i r2 heq
            obtain ⟨c, t, hct, -, hne1, -⟩ := encodeVal_head v hv.1
            rw [hct, List.cons_append] at heq
            exact absurd (List.cons.injEq .. ▸ heq).1 hne1
          · rw [ihI v vs rest hv.1 hv.2 (by omega)]
      | obj fs =>
        cases fs with
        | nil =>
          rw [encodeVal_obj_nil]
          show parseValue (f + 1) ('{' :: '}' :: rest) = _
          rw [parseValue.eq_2, skipWs_cons_of_not_ws (by decide)]
          simp [skipWs_cons_of_not_ws (show jsonWs '}' = false by decide)]
        | cons k v fs =>
          rw [numFreeV_obj_cons, Bool.and_eq_true] at hv
          rw [jsize_obj_cons] at hf
          rw [encodeVal_obj_cons]
          simp only [List.cons_append, List.nil_append, List.append_assoc]
          rw [parseValue.eq_2, skipWs_cons_of_not_ws (by decide)]
          simp only [reduceIte, Char.reduceEq, reduceCtorEq]
          rw [show skipWs (encodeField k v ++ (encodeTailO fs ++ '}' :: rest)) =
                encodeField k v ++ (encodeTailO fs ++ '}' :: rest) by
            rw [encodeField_def, List.cons_append, skipWs_cons_of_not_ws (by decide)]]
          split
          · rename_i r2 heq
            rw [encodeField_def, List.cons_append] at heq
            exact absurd (List.cons.injEq .. ▸ heq).1 (by decide)
          · rw [ihF k v fs rest hv.1 hv.2 (by omega)]
    · intro v vs rest hv hvs hf
      have hp := jsize_pos v
      rw [parseItems.eq_2]
      rw [ihV v _ hv (by omega)]
      simp only []
      cases vs with
      | nil =>
        rw [encodeTailA_nil]
        simp only [List.nil_append]
        rw [skipWs_cons_of_not_ws (by decide)]
        simp only []
      | cons v2 vs2 =>
        rw [numFreeA_cons, Bool.and_eq_true] at hvs
        rw [jsizeA_cons] at hf
        rw [encodeTailA_cons]
        simp only [List.cons_append, List.append_assoc]
        rw [skipWs_cons_of_not_ws (by decide)]
        simp only []
        rw [parseItems_cons_ws (show jsonWs ' ' = true by decide)]
        rw [ihI v2 vs2 rest hvs.1 hvs.2 (by omega)]
    · intro k v fs rest hv hfs hf
      have hp := jsize_pos v
      rw [encodeField_def]
      simp only [List.cons_append, List.append_assoc]
      rw [parseFields.eq_2]
      try simp only []
      rw [parseStrBody_encode]
      try simp only []
      rw [skipWs_cons_of_not_ws (by decide)]
      try simp only []
      rw [parseValue_cons_ws (show jsonWs ' ' = true by decide)]
      rw [ihV v _ hv (by omega)]
      try simp only []
      cases fs with
      | nil =>
        rw [encodeTailO_nil]
        simp only [List.nil_append]
        rw [skipWs_cons_of_not_ws (by decide)]
        try simp only []
      | cons k2 v2 fs2 =>
        rw [numFreeO_cons, Bool.and_eq_true] at hfs
        rw [jsizeO_cons] at hf
        rw [encodeTailO_cons]
        simp only [List.cons_append, List.append_assoc]
        rw [skipWs_cons_of_not_ws (by decide)]
        simp only []
        rw [skipWs_cons_of_ws (show jsonWs ' ' = true by decide)]
        rw [show skipWs (encodeField k2 v2 ++ (encodeTailO fs2 ++ '}' :: rest)) =
              encodeField k2 v2 ++ (encodeTailO fs2 ++ '}' :: rest) by
          rw [encodeField_def, List.cons_append, skipWs_cons_of_not_ws (by decide)]]
        rw [ihF k2 v2 fs2 rest hfs.1 hfs.2 (by omega)]
      simp only [List.length_append, List.length_cons]
      have := length_le_encodeStrBody k.data
      omega

/-- The size measure of a value is dominated by the length of its
encoding, proved jointly for the three encoder entry points by strong
induction on the structural size. -/
theorem jsize_le_encode_length (n : Nat) :
    (∀ v : JVal, numFreeV v = true → sizeOf v ≤ n → jsize v ≤ (encodeVal v).length) ∧
    (∀ vs : JArr, numFreeA vs = true → sizeOf vs ≤ n → jsizeA vs ≤ (encodeTailA vs).length) ∧
    (∀ fs : JObj, numFreeO fs = true → sizeOf fs ≤ n → jsizeO fs ≤ (encodeTailO fs).length) := by
  induction n with
  | zero =>
    refine ⟨fun v _ h => ?_, fun vs _ h => ?_, fun fs _ h => ?_⟩
    · cases v <;> simp at h
    · cases vs <;> simp at h
    · cases fs <;> simp at h
  | succ n ih =>
    obtain ⟨ihV, ihA, ihO⟩ := ih
    refine ⟨fun v hnf h => ?_, fun vs hnf h => ?_, fun fs hnf h => ?_⟩
    · cases v with
      | null => rw [jsize.eq_def, encodeVal_null]; simp
      | bool b => cases b with
        | true => rw [jsize.eq_def, encodeVal_true]; simp
        | false => rw [jsize.eq_def, encodeVal_false]; simp
      | num raw =>
        rw [numFreeV.eq_def] at hnf
        simp only [] at hnf
        exact Bool.noConfusion hnf
      | str s => rw [jsize.eq_def, encodeVal_str]; simp
      | arr xs =>
        cases xs with
        | nil =>
          rw [jsize.eq_def, encodeVal_arr_nil]; simp only []
          simp [jsizeA_nil]
        | cons v vs =>
          rw [numFreeV_arr_cons, Bool.and_eq_true] at hnf
          have h1 : sizeOf v ≤ n ∧ sizeOf vs ≤ n := by
            simp at h; omega
          have := ihV v hnf.1 h1.1
          have := ihA vs hnf.2 h1.2
          rw [jsize_arr_cons, encodeVal_arr_cons]
          simp [List.length_append, jsizeA_cons]
          omega
      | obj fs =>
        cases fs with
        | nil =>
          rw [jsize.eq_def, encodeVal_obj_nil]; simp only []
          simp [jsizeO_nil]
        | cons k v fs =>
          rw [numFreeV_obj_cons, Bool.and_eq_true] at hnf
          have h1 : sizeOf v ≤ n ∧ sizeOf fs ≤ n := by
            simp at h; omega
          have := ihV v hnf.1 h1.1
          have := ihO fs hnf.2 h1.2
          rw [jsize_obj_cons, encodeVal_obj_cons, encodeField_def]
          simp [List.length_append]
          omega
    · cases vs with
      | nil => rw [jsizeA_nil, encodeTailA_nil]; simp
      | cons v vs =>
        rw [numFreeA_cons, Bool.and_eq_true] at hnf
        have h1 : sizeOf v ≤ n ∧ sizeOf vs ≤ n := by
          simp at h; omega
        have := ihV v hnf.1 h1.1
        have := ihA vs hnf.2 h1.2
        rw [jsizeA_cons, encodeTailA_cons]
        simp [List.length_append]
        omega
    · cases fs with
      | nil => rw [jsizeO_nil, encodeTailO_nil]; simp
      | cons k v fs =>
        rw [numFreeO_cons, Bool.and_eq_true] at hnf
        have h1 : sizeOf v ≤ n ∧ sizeOf fs ≤ n := by
          simp at h; omega
        have := ihV v hnf.1 h1.1
        have := ihO fs hnf.2 h1.2
        rw [jsizeO_cons, encodeTailO_cons, encodeField_def]
        simp [List.length_append]
        omega

/-- json.loads inverts json.dumps on number-free JSON values. -/
theorem jsonLoads_encodeVal (v : JVal) (hv : numFreeV v = true) :
    jsonLoads (encodeVal v) = some v := by
  have h1 : parseValue ((encodeVal v).length + 1) (encodeVal v ++ []) = some (v, []) :=
    (parse_encode_all _).1 v [] hv
      (by have := (jsize_le_encode_length (sizeOf v)).1 v hv (le_refl _); omega)
  rw [List.append_nil] at h1
  unfold jsonLoads
  rw [h1]
  simp [skipWs]

/-!
The MeetingSummary value object of app/models/schemas.py, its
model_dump image as a JSON value, and pydantic construction from a
parsed JSON value.
-/

/-- app/models/schemas.py, Participant: both fields optional. -/
structure Participant where
  name : Option String
  role : Option String
deriving DecidableEq

/-- app/models/schemas.py, ActionItem: task required. -/
structure ActionItem where
  task : String
  assignee : Option String
  deadline : Option String
deriving DecidableEq

/-- app/models/schemas.py, Decision: description required. -/
structure Decision where
  description : String
  context : Option String
deriving DecidableEq

/-- app/models/schemas.py, MeetingSummary: title, summary and transcript
required strings, the four list fields optional with default null. -/
structure MeetingSummary where
  title : String
  summary : String
  participants : Option (List Participant)
  key_points : Option (List String)
  decisions : Option (List Decision)
  action_items : Option (List ActionItem)
  transcript : String
deriving DecidableEq

/-- A Python None or string as a JSON value. -/
def dumpOptStr : Option String → JVal
  | none => .null
  | some s => .str s

/-- model_dump of a Participant. -/
def dumpParticipant (p : Participant) : JVal :=
  .obj (.cons "name" (dumpOptStr p.name) (.cons "role" (dumpOptStr p.role) .nil))

/-- model_dump of an ActionItem. -/
def dumpActionItem (a : ActionItem) : JVal :=
  .obj (.cons "task" (.str a.task) (.cons "assignee" (dumpOptStr a.assignee)
    (.cons "deadline" (dumpOptStr a.deadline) .nil)))

/-- model_dump of a Decision. -/
def dumpDecision (d : Decision) : JVal :=
  .obj (.cons "description" (.str d.description)
    (.cons "context" (dumpOptStr d.context) .nil))

/-- A Lean list of JSON values as a JSON array. -/
def JArr.ofList : List JVal → JArr
  | [] => .nil
  | v :: vs => .cons v (JArr.ofList vs)

/-- A Python None or list as a JSON value. -/
def dumpOptList (f : α → JVal) : Option (List α) → JVal
  | none => .null
  | some xs => .arr (JArr.ofList (xs.map f))

/-- MeetingSummary.model_dump() viewed as the JSON value json.dumps
receives: the fields in declaration order, None as null, optional lists
kept as null or as a real array. -/
def dumpSummary (m : MeetingSummary) : JVal :=
  .obj (.cons "title" (.str m.title)
    (.cons "summary" (.str m.summary)
      (.cons "participants" (dumpOptList dumpParticipant m.participants)
        (.cons "key_points" (dumpOptList JVal.str m.key_points)
          (.cons "decisions" (dumpOptList dumpDecision m.decisions)
            (.cons "action_items" (dumpOptList dumpActionItem m.action_items)
              (.cons "transcript" (.str m.transcript) .nil)))))))

/-- Dict lookup on a parsed JSON object; a later duplicate key wins, as
in the dict json.loads builds. -/
def lookupField : JObj → String → Option JVal
  | .nil, _ => none
  | .cons k v fs, key =>
    match lookupField fs key with
    | some v2 => some v2
    | none => if k = key then some v else none

/-- A required pydantic str field. -/
def vStr : JVal → Option String
  | .str s => some s
  | _ => none

/-- An optional pydantic str field: absent or null is None. -/
def vOptStr : Option JVal → Option (Option String)
  | none => some none
  | some .null => some none
  | some (.str s) => some (some s)
  | some _ => none

/-- Pydantic validation of a Participant from a JSON value. -/
def vParticipant : JVal → Option Participant
  | .obj fs => do
    let name ← vOptStr (lookupField fs "name")
    let role ← vOptStr (lookupField fs "role")
    some ⟨name, role⟩
  | _ => none

/-- Pydantic validation of an ActionItem from a JSON value. -/
def vActionItem : JVal → Option ActionItem
  | .obj fs => do
    let task ← (lookupField fs "task").bind vStr
    let assignee ← vOptStr (lookupField fs "assignee")
    let deadline ← vOptStr (lookupField fs "deadline")
    some ⟨task, assignee, deadline⟩
  | _ => none

/-- Pydantic validation of a Decision from a JSON value. -/
def vDecision : JVal → Option Decision
  | .obj fs => do
    let description ← (lookupField fs "description").bind vStr
    let context ← vOptStr (lookupField fs "context")
    some ⟨description, context⟩
  | _ => none

/-- Elementwise validation of a JSON array. -/
def vList (f : JVal → Option α) : JArr → Option (List α)
  | .nil => some []
  | .cons v vs => do
    let x ← f v
    let xs ← vList f vs
    some (x :: xs)

/-- An optional pydantic list field: absent or null is None, an array is
validated elementwise. -/
def vOptList (f : JVal → Option α) : Option JVal → Option (Option (List α))
  | none => some none
  | some .null => some none
  | some (.arr xs) => (vList f xs).map some
  | some _ => none

/-- Pydantic construction MeetingSummary(**d) from a parsed JSON value:
the three required string fields must be present as strings, the four
optional list fields may be absent or null. -/
def validateSummary : JVal → Option MeetingSummary
  | .obj fs => do
    let title ← (lookupField fs "title").bind vStr
    let summary ← (lookupField fs "summary").bind vStr
    let participants ← vOptList vParticipant (lookupField fs "participants")
    let key_points ← vOptList vStr (lookupField fs "key_points")
    let decisions ← vOptList vDecision (lookupField fs "decisions")
    let action_items ← vOptList vActionItem (lookupField fs "action_items")
    let transcript ← (lookupField fs "transcript").bind vStr
    some ⟨title, summary, participants, key_points, decisions, action_items, transcript⟩
  | _ => none

theorem numFreeV_null_eq : numFreeV .null = true := by rw [numFreeV.eq_def]

theorem numFreeV_str_eq (s : String) : numFreeV (.str s) = true := by rw [numFreeV.eq_def]

theorem numFreeA_nil_eq : numFreeA .nil = true := by rw [numFreeA.eq_def]

theorem numFreeO_nil_eq : numFreeO .nil = true := by rw [numFreeO.eq_def]

theorem numFreeV_dumpOptStr (o : Option String) : numFreeV (dumpOptStr o) = true := by
  cases o <;> simp [dumpOptStr, numFreeV_null_eq, numFreeV_str_eq]

theorem numFreeV_dumpParticipant (p : Participant) :
    numFreeV (dumpParticipant p) = true := by
  simp [dumpParticipant, numFreeV_obj_cons, numFreeO_cons, numFreeO_nil_eq,
    numFreeV_dumpOptStr]

theorem numFreeV_dumpActionItem (a : ActionItem) :
    numFreeV (dumpActionItem a) = true := by
  simp [dumpActionItem, numFreeV_obj_cons, numFreeO_cons, numFreeO_nil_eq,
    numFreeV_dumpOptStr, numFreeV_str_eq]

theorem numFreeV_dumpDecision (d : Decision) :
    numFreeV (dumpDecision d) = true := by
  simp [dumpDecision, numFreeV_obj_cons, numFreeO_cons, numFreeO_nil_eq,
    numFreeV_dumpOptStr, numFreeV_str_eq]

theorem numFreeA_ofList (xs : List JVal) (h : ∀ v ∈ xs, numFreeV v = true) :
    numFreeA (JArr.ofList xs) = true := by
  induction xs with
  | nil => simp [JArr.ofList, numFreeA_nil_eq]
  | cons v vs ih =>
    simp [JArr.ofList, numFreeA_cons, h v (by simp), ih (fun w hw => h w (by simp [hw]))]

theorem numFreeV_dumpOptList (f : α → JVal) (h : ∀ x, numFreeV (f x) = true)
    (o : Option (List α)) : numFreeV (dumpOptList f o) = true := by
  cases o with
  | none => simp [dumpOptList, numFreeV_null_eq]
  | some xs =>
    have heq : numFreeV (JVal.arr (JArr.ofList (xs.map f)))
        = numFreeA (JArr.ofList (xs.map f)) := by
      cases hx : JArr.ofList (xs.map f) with
      | nil => rw [numFreeV.eq_def]
      | cons v vs => rw [numFreeV_arr_cons, numFreeA_cons]
    have hmem : ∀ v ∈ xs.map f, numFreeV v = true := by
      intro v hv
      obtain ⟨x, -, rfl⟩ := List.mem_map.1 hv
      exact h x
    simp [dumpOptList, heq, numFreeA_ofList _ hmem]

theorem numFreeV_dumpSummary (m : MeetingSummary) :
    numFreeV (dumpSummary m) = true := by
  simp [dumpSummary, numFreeV_obj_cons, numFreeO_cons, numFreeO_nil_eq, numFreeV_str_eq,
    numFreeV_dumpOptList dumpParticipant numFreeV_dumpParticipant,
    numFreeV_dumpOptList JVal.str numFreeV_str_eq,
    numFreeV_dumpOptList dumpDecision numFreeV_dumpDecision,
    numFreeV_dumpOptList dumpActionItem numFreeV_dumpActionItem]

theorem vParticipant_dump (p : Participant) : vParticipant (dumpParticipant p) = some p := by
  cases p with
  | mk name role => cases name <;> cases role <;> rfl

theorem vActionItem_dump (a : ActionItem) : vActionItem (dumpActionItem a) = some a := by
  cases a with
  | mk t asg dl => cases asg <;> cases dl <;> rfl

theorem vDecision_dump (d : Decision) : vDecision (dumpDecision d) = some d := by
  cases d with
  | mk ds ctx => cases ctx <;> rfl

theorem vList_ofList_map (f : α → JVal) (g : JVal → Option α)
    (h : ∀ x, g (f x) = some x) (xs : List α) :
    vList g (JArr.ofList (xs.map f)) = some xs := by
  induction xs with
  | nil => rfl
  | cons x xs ih => simp [JArr.ofList, vList, h x, ih]

theorem vOptList_dump (f : α → JVal) (g : JVal → Option α)
    (h : ∀ x, g (f x) = some x) (o : Option (List α)) :
    vOptList g (some (dumpOptList f o)) = some o := by
  cases o with
  | none => rfl
  | some xs => simp [dumpOptList, vOptList, vList_ofList_map f g h]

/-- Pydantic validation inverts model_dump on MeetingSummary. -/
theorem validateSummary_dump (m : MeetingSummary) :
    validateSummary (dumpSummary m) = some m := by
  cases m with
  | mk t s pa kp de ai tr =>
    simp [dumpSummary, validateSummary, lookupField, vStr,
      vOptList_dump dumpParticipant vParticipant vParticipant_dump,
      vOptList_dump JVal.str vStr (fun x => rfl),
      vOptList_dump dumpDecision vDecision vDecision_dump,
      vOptList_dump dumpActionItem vActionItem vActionItem_dump]

/-- C9: for every MeetingSummary value, serializing it (model_dump, then
JSON encoding with the default dumps settings used in app/main.py) and
deserializing it back (json.loads, then pydantic construction) yields an
equal MeetingSummary; since the round trip is the identity on every
value, an optional list field that is null comes back as null and one
that is an empty list comes back as an empty list, never collapsing the
two. -/
theorem meetingSummary_serialization_roundtrip (m : MeetingSummary) :
    (jsonLoads (encodeVal (dumpSummary m))).bind validateSummary = some m := by
  rw [jsonLoads_encodeVal _ (numFreeV_dumpSummary m)]
  simp [validateSummary_dump]

/-!
Occurrences of fenced-block markers: characterization of the substring
search and the location of the first fence in wrapped provider texts.
-/

/-- Occurrence characterization of the substring search. -/
theorem findSubAux_isSome_iff (sub hay : List Char) (i : Nat) :
    (findSubAux sub hay i).isSome = true ↔ ∃ j, sub.isPrefixOf (hay.drop j) = true := by
  induction hay generalizing i with
  | nil =>
    simp only [findSubAux, List.drop_nil]
    cases sub with
    | nil => simp [List.isPrefixOf]
    | cons c cs => simp [List.isPrefixOf, List.isEmpty]
  | cons c cs ih =>
    simp only [findSubAux]
    cases hp : sub.isPrefixOf (c :: cs) with
    | true =>
      rw [if_pos rfl]
      simp only [Option.isSome_some, true_iff]
      exact ⟨0, by simpa using hp⟩
    | false =>
      rw [if_neg (by decide)]
      rw [ih (i + 1)]
      constructor
      · rintro ⟨j, hj⟩
        exact ⟨j + 1, by simpa using hj⟩
      · rintro ⟨j, hj⟩
        cases j with
        | zero =>
          rw [List.drop_zero] at hj
          rw [hj] at hp
          exact Bool.noConfusion hp
        | succ j => exact ⟨j, by simpa using hj⟩

theorem containsSub_iff (hay sub : List Char) :
    containsSub hay sub = true ↔ ∃ j, sub.isPrefixOf (hay.drop j) = true := by
  rw [containsSub]
  exact findSubAux_isSome_iff sub hay 0

/-- Splitting a containment failure at a cons cell. -/
theorem containsSub_cons (c : Char) (cs sub : List Char) :
    containsSub (c :: cs) sub = false ↔
      sub.isPrefixOf (c :: cs) = false ∧ containsSub cs sub = false := by
  have h1 := containsSub_iff (c :: cs) sub
  have h2 := containsSub_iff cs sub
  constructor
  · intro h
    constructor
    · cases hp : sub.isPrefixOf (c :: cs) with
      | false => rfl
      | true =>
        exfalso
        have ht : containsSub (c :: cs) sub = true := h1.2 ⟨0, by simpa using hp⟩
        rw [h] at ht
        exact Bool.noConfusion ht
    · cases hc : containsSub cs sub with
      | false => rfl
      | true =>
        exfalso
        obtain ⟨j, hj⟩ := h2.1 hc
        have ht : containsSub (c :: cs) sub = true := h1.2 ⟨j + 1, by simpa using hj⟩
        rw [h] at ht
        exact Bool.noConfusion ht
  · rintro ⟨hp, hc⟩
    cases hcc : containsSub (c :: cs) sub with
    | false => rfl
    | true =>
      exfalso
      obtain ⟨j, hj⟩ := h1.1 hcc
      cases j with
      | zero =>
        rw [List.drop_zero] at hj
        rw [hj] at hp
        exact Bool.noConfusion hp
      | succ j =>
        have ht : containsSub cs sub = true := h2.2 ⟨j, by simpa using hj⟩
        rw [ht] at hc
        exact Bool.noConfusion hc

/-- A tagged fence occurrence yields a plain fence occurrence. -/
theorem containsSub_fence_of_tagFence (hay : List Char)
    (h : containsSub hay tagFence = true) : containsSub hay fence = true := by
  rw [containsSub_iff] at h ⊢
  obtain ⟨j, hj⟩ := h
  refine ⟨j, ?_⟩
  rw [List.isPrefixOf_iff_prefix] at hj ⊢
  exact List.IsPrefix.trans ⟨"json".data, rfl⟩ hj

/-- Search finds the pattern at the head of the text. -/
theorem findSubAux_self (sub X : List Char) (hne : sub ≠ []) (i : Nat) :
    findSubAux sub (sub ++ X) i = some i := by
  cases sub with
  | nil => exact absurd rfl hne
  | cons c cs =>
    simp only [List.cons_append, findSubAux]
    rw [if_pos]
    rw [List.isPrefixOf_iff_prefix]
    exact ⟨X, by simp⟩

/-- A pattern without a newline that is no prefix of a text is no prefix
of the text followed by a newline and anything. -/
theorem isPrefixOf_append_nl (sub : List Char) (hnl : ('\n' : Char) ∉ sub) :
    ∀ t u : List Char, sub.isPrefixOf t = false → sub.isPrefixOf (t ++ '\n' :: u) = false := by
  induction sub with
  | nil => intro t u h; simp [List.isPrefixOf] at h
  | cons s sub ih =>
    intro t u h
    cases t with
    | nil =>
      simp only [List.nil_append, List.isPrefixOf]
      have hs : (s == '\n') = false := by
        have : s ≠ '\n' := fun he => hnl (he ▸ List.mem_cons_self s sub)
        simpa using this
      simp [hs]
    | cons a t' =>
      simp only [List.cons_append, List.isPrefixOf, Bool.and_eq_false_iff] at h ⊢
      rcases h with h | h
      · exact Or.inl h
      · exact Or.inr (ih (fun hm => hnl (List.mem_cons_of_mem s hm)) t' u h)

/-- In a fence-free text followed by newline and a fence, the first
fence occurrence is the trailing one. -/
theorem findSubAux_fence_sep (cs : List Char) (h : containsSub cs fence = false) (i : Nat) :
    findSubAux fence (cs ++ '\n' :: fence) i = some (i + cs.length + 1) := by
  induction cs generalizing i with
  | nil =>
    simp only [List.nil_append, List.length_nil]
    rw [findSubAux.eq_def]
    simp only []
    rw [if_neg (by decide)]
    have hself := findSubAux_self fence [] (by decide) (i + 1)
    rw [List.append_nil] at hself
    rw [hself]
  | cons c cs ih =>
    rw [containsSub_cons] at h
    have hnp : fence.isPrefixOf ((c :: cs) ++ '\n' :: fence) = false :=
      isPrefixOf_append_nl fence (by decide) _ _ h.1
    rw [List.cons_append] at hnp
    rw [List.cons_append, findSubAux.eq_def]
    simp only []
    rw [if_neg (by simp [hnp])]
    rw [ih h.2 (i + 1)]
    simp only [List.length_cons, Option.some.injEq]
    omega

/-- Response shape (b) of the spec: the serialized object inside a fenced
block tagged json. -/
def wrapTagged (cs : List Char) : List Char := tagFence ++ ('\n' :: (cs ++ '\n' :: fence))

/-- Response shape (c) of the spec: the serialized object inside an
untagged fenced block. -/
def wrapPlain (cs : List Char) : List Char := fence ++ ('\n' :: (cs ++ '\n' :: fence))

theorem not_containsSub_drops (hay sub : List Char) (h : containsSub hay sub = false)
    (j : Nat) : sub.isPrefixOf (hay.drop j) = false := by
  cases hx : sub.isPrefixOf (hay.drop j) with
  | false => rfl
  | true =>
    exfalso
    have ht := (containsSub_iff hay sub).2 ⟨j, hx⟩
    rw [h] at ht
    exact Bool.noConfusion ht

theorem containsSub_of_isPrefixOf_drop (hay sub : List Char) (j : Nat)
    (h : sub.isPrefixOf (hay.drop j) = true) : containsSub hay sub = true :=
  (containsSub_iff hay sub).2 ⟨j, h⟩

/-- Fence-free texts are tagged-fence-free. -/
theorem not_containsSub_tagFence (cs : List Char) (h : containsSub cs fence = false) :
    containsSub cs tagFence = false := by
  cases hx : containsSub cs tagFence with
  | false => rfl
  | true =>
    exfalso
    have := containsSub_fence_of_tagFence cs hx
    rw [h] at this
    exact Bool.noConfusion this

theorem fence_not_prefix_nl (cs : List Char) : fence.isPrefixOf ('\n' :: cs) = false := by
  rw [show fence = '\x60' :: '\x60' :: '\x60' :: [] from rfl]
  simp [List.isPrefixOf]

theorem skipNl_contains_fence (c : Char) (cs : List Char) (hc : fence.isPrefixOf (c :: cs) = false)
    (h : containsSub cs fence = false) : containsSub (c :: cs) fence = false :=
  (containsSub_cons c cs fence).2 ⟨hc, h⟩

/-- The first plain fence of the tagged wrapping, searched from the end
of the opener, is the closing fence. -/
theorem pyFindFrom_wrapTagged_close (cs : List Char) (h : containsSub cs fence = false) :
    pyFindFrom (wrapTagged cs) fence 7 = ((cs.length + 9 : Nat) : Int) := by
  have hdrop : (wrapTagged cs).drop 7 = '\n' :: (cs ++ '\n' :: fence) := by
    rw [wrapTagged]
    exact List.drop_left' (by rfl)
  rw [pyFindFrom, hdrop]
  have hsep : findSubAux fence (('\n' :: cs) ++ '\n' :: fence) 0 =
      some (0 + ('\n' :: cs).length + 1) :=
    findSubAux_fence_sep ('\n' :: cs)
      (skipNl_contains_fence '\n' cs (fence_not_prefix_nl cs) h) 0
  rw [List.cons_append] at hsep
  rw [hsep]
  simp only [List.length_cons]
  norm_num
  omega

theorem pyFindFrom_wrapTagged_open (cs : List Char) :
    pyFindFrom (wrapTagged cs) tagFence 0 = 0 := by
  rw [pyFindFrom, List.drop_zero, wrapTagged, findSubAux_self tagFence _ (by decide) 0]
  rfl

theorem containsSub_wrapTagged_tagFence (cs : List Char) :
    containsSub (wrapTagged cs) tagFence = true := by
  rw [containsSub, wrapTagged, findSubAux_self tagFence _ (by decide) 0]
  rfl

theorem containsSub_wrapPlain_fence (cs : List Char) :
    containsSub (wrapPlain cs) fence = true := by
  rw [containsSub, wrapPlain, findSubAux_self fence _ (by decide) 0]
  rfl

theorem pyFindFrom_wrapPlain_open (cs : List Char) :
    pyFindFrom (wrapPlain cs) fence 0 = 0 := by
  rw [pyFindFrom, List.drop_zero, wrapPlain, findSubAux_self fence _ (by decide) 0]
  rfl

theorem pyFindFrom_wrapPlain_close (cs : List Char) (h : containsSub cs fence = false) :
    pyFindFrom (wrapPlain cs) fence 3 = ((cs.length + 5 : Nat) : Int) := by
  have hdrop : (wrapPlain cs).drop 3 = '\n' :: (cs ++ '\n' :: fence) := by
    rw [wrapPlain]
    exact List.drop_left' (by rfl)
  rw [pyFindFrom, hdrop]
  have hsep : findSubAux fence (('\n' :: cs) ++ '\n' :: fence) 0 =
      some (0 + ('\n' :: cs).length + 1) :=
    findSubAux_fence_sep ('\n' :: cs)
      (skipNl_contains_fence '\n' cs (fence_not_prefix_nl cs) h) 0
  rw [List.cons_append] at hsep
  rw [hsep]
  simp only [List.length_cons]
  norm_num
  omega



theorem tagF_nprefix_tail (m : Nat) :
    tagFence.isPrefixOf (List.drop m ('\n' :: fence)) = false := by
  rcases m with _ | _ | _ | _ | m
  · decide
  · decide
  · decide
  · decide
  · rw [List.drop_eq_nil_of_le (by simp [fence])]
    decide

theorem not_containsSub_wrapPlain_tagFence (cs : List Char)
    (h : containsSub cs fence = false) :
    containsSub (wrapPlain cs) tagFence = false := by
  cases hx : containsSub (wrapPlain cs) tagFence with
  | false => rfl
  | true =>
    exfalso
    obtain ⟨j, hj⟩ := (containsSub_iff _ _).1 hx
    have hw : wrapPlain cs = '\x60' :: '\x60' :: '\x60' :: '\n' :: (cs ++ '\n' :: fence) := by
      rw [wrapPlain]
      rfl
    rw [hw] at hj
    match j, hj with
    | 0, hj => rw [show tagFence = "```json".data from rfl] at hj; simp [List.isPrefixOf] at hj
    | 1, hj => rw [show tagFence = "```json".data from rfl] at hj; simp [List.isPrefixOf] at hj
    | 2, hj => rw [show tagFence = "```json".data from rfl] at hj; simp [List.isPrefixOf] at hj
    | 3, hj => rw [show tagFence = "```json".data from rfl] at hj; simp [List.isPrefixOf] at hj
    | (j + 4), hj =>
      simp only [List.drop_succ_cons] at hj
      by_cases hc : j ≤ cs.length
      · rw [List.drop_append_of_le_length hc] at hj
        cases hp : tagFence.isPrefixOf (cs.drop j) with
        | false =>
          rw [isPrefixOf_append_nl tagFence (by decide) _ _ hp] at hj
          exact Bool.noConfusion hj
        | true =>
          have h1 : containsSub cs tagFence = true := containsSub_of_isPrefixOf_drop _ _ j hp
          have h2 := containsSub_fence_of_tagFence cs h1
          rw [h] at h2
          exact Bool.noConfusion h2
      · obtain ⟨m, rfl⟩ : ∃ m, j = cs.length + m := ⟨j - cs.length, by omega⟩
        rw [show cs.length + m = cs.length + m from rfl, List.drop_append] at hj
        rw [tagF_nprefix_tail m] at hj
        exact Bool.noConfusion hj

theorem pyStrip_sandwich (Y : List Char) (c d : Char) (hc : pyIsSpace c = false)
    (hd : pyIsSpace d = false) :
    pyStrip ('\n' :: ((c :: Y ++ [d]) ++ ['\n'])) = c :: Y ++ [d] := by
  rw [pyStrip]
  have h1 : List.dropWhile pyIsSpace ('\n' :: ((c :: Y ++ [d]) ++ ['\n']))
      = (c :: Y ++ [d]) ++ ['\n'] := by
    rw [List.dropWhile_cons, if_pos (by decide)]
    rw [show (c :: Y ++ [d]) ++ ['\n'] = c :: ((Y ++ [d]) ++ ['\n']) from by simp]
    rw [List.dropWhile_cons, if_neg (by simp [hc])]
  rw [h1]
  have h2 : ((c :: Y ++ [d]) ++ ['\n']).reverse = '\n' :: (d :: (c :: Y).reverse) := by
    rw [List.reverse_append]
    rw [show (c :: Y ++ [d]) = (c :: Y) ++ [d] from rfl]
    rw [List.reverse_append]
    rfl
  rw [h2]
  rw [List.dropWhile_cons, if_pos (by decide)]
  rw [List.dropWhile_cons, if_neg (by simp [hd])]
  rw [show (d :: (c :: Y).reverse) = ((c :: Y) ++ [d]).reverse from by
    rw [List.reverse_append]; rfl]
  rw [List.reverse_reverse]

theorem taggedExtract_wrapTagged (cs : List Char) (h : containsSub cs fence = false) :
    taggedExtract (wrapTagged cs) = pyStrip ('\n' :: (cs ++ ['\n'])) := by
  rw [taggedExtract]
  rw [pyFindFrom_wrapTagged_open]
  rw [show (0 : Int).toNat + 7 = 7 from rfl]
  rw [pyFindFrom_wrapTagged_close cs h]
  have hslice : pySlice (wrapTagged cs) 7 ((cs.length + 9 : Nat) : Int)
      = '\n' :: (cs ++ ['\n']) := by
    rw [pySlice]
    have hstop : (if ((cs.length + 9 : Nat) : Int) < 0 then
        ((wrapTagged cs).length : Int) + ((cs.length + 9 : Nat) : Int)
        else ((cs.length + 9 : Nat) : Int)).toNat = cs.length + 9 := by
      rw [if_neg (by omega)]
      omega
    rw [hstop]
    have hgrp : wrapTagged cs = (tagFence ++ ('\n' :: (cs ++ ['\n']))) ++ fence := by
      simp [wrapTagged, List.append_assoc]
    rw [hgrp]
    rw [List.take_left' (by simp [tagFence])]
    exact List.drop_left' (by rfl)
  rw [hslice]

theorem untaggedExtract_wrapPlain (cs : List Char) (h : containsSub cs fence = false) :
    untaggedExtract (wrapPlain cs) = pyStrip ('\n' :: (cs ++ ['\n'])) := by
  rw [untaggedExtract]
  rw [pyFindFrom_wrapPlain_open]
  rw [show (0 : Int).toNat + 3 = 3 from rfl]
  rw [pyFindFrom_wrapPlain_close cs h]
  rw [if_neg (by omega)]
  have hslice : pySlice (wrapPlain cs) 3 ((cs.length + 5 : Nat) : Int)
      = '\n' :: (cs ++ ['\n']) := by
    rw [pySlice]
    have hstop : (if ((cs.length + 5 : Nat) : Int) < 0 then
        ((wrapPlain cs).length : Int) + ((cs.length + 5 : Nat) : Int)
        else ((cs.length + 5 : Nat) : Int)).toNat = cs.length + 5 := by
      rw [if_neg (by omega)]
      omega
    rw [hstop]
    have hgrp : wrapPlain cs = (fence ++ ('\n' :: (cs ++ ['\n']))) ++ fence := by
      simp [wrapPlain, List.append_assoc]
    rw [hgrp]
    rw [List.take_left' (by simp [fence])]
    exact List.drop_left' (by rfl)
  rw [hslice]

/-!
The three provider response shapes of the spec and the extraction
behaviour of summarize_meeting on them.
-/

/-- The tail of the model_dump object after the title member. -/
def dumpTail (m : MeetingSummary) : JObj :=
  .cons "summary" (.str m.summary)
    (.cons "participants" (dumpOptList dumpParticipant m.participants)
      (.cons "key_points" (dumpOptList JVal.str m.key_points)
        (.cons "decisions" (dumpOptList dumpDecision m.decisions)
          (.cons "action_items" (dumpOptList dumpActionItem m.action_items)
            (.cons "transcript" (.str m.transcript) .nil)))))

theorem encodeVal_dumpSummary_shape (m : MeetingSummary) :
    encodeVal (dumpSummary m) =
      '{' :: ((encodeField "title" (.str m.title) ++ encodeTailO (dumpTail m)) ++ ['}']) := by
  rw [show dumpSummary m = JVal.obj (JObj.cons "title" (JVal.str m.title) (dumpTail m)) from rfl,
    encodeVal_obj_cons]

/-- C3 (amended): the extraction commits to a single level chosen by
substring presence alone: the tagged branch whenever the text contains
the tagged opener anywhere, else the untagged branch whenever it
contains a plain fence, else the raw text; exactly one extraction is
parsed, and a parse failure at the chosen level makes the whole call
fail without trying the remaining levels. -/
theorem extraction_commits_by_marker_presence :
    (∀ cs : List Char, containsSub cs fence = false → summarizeParse cs = jsonLoads cs) ∧
    (∀ cs : List Char, containsSub cs tagFence = true →
      summarizeParse cs = jsonLoads (taggedExtract cs) ∧
      (jsonLoads (taggedExtract cs) = none → summarizeParse cs = none)) ∧
    (∀ cs : List Char, containsSub cs tagFence = false → containsSub cs fence = true →
      summarizeParse cs = jsonLoads (untaggedExtract cs) ∧
      (jsonLoads (untaggedExtract cs) = none → summarizeParse cs = none)) := by
  refine ⟨?_, ?_, ?_⟩
  · intro cs h
    rw [summarizeParse, extractResponse, not_containsSub_tagFence cs h, h]
    simp
  · intro cs h
    have he : summarizeParse cs = jsonLoads (taggedExtract cs) := by
      rw [summarizeParse, extractResponse, h]
      simp
    exact ⟨he, fun hn => he.trans hn⟩
  · intro cs h1 h2
    have he : summarizeParse cs = jsonLoads (untaggedExtract cs) := by
      rw [summarizeParse, extractResponse, h1, h2]
      simp
    exact ⟨he, fun hn => he.trans hn⟩

/-- Witness for the amended C3 statement at a concrete response text
whose tagged extraction fails to parse. -/
theorem extraction_commits_witness :
    containsSub "\x7b\"title\": \"x ```json y\"\x7d".data tagFence = true ∧
    summarizeParse "\x7b\"title\": \"x ```json y\"\x7d".data = none :=
  ⟨rfl, (extraction_commits_by_marker_presence.2.1 "\x7b\"title\": \"x ```json y\"\x7d".data
    rfl).2 rfl⟩

/-- C3 counterexample: a response that is valid raw JSON and merely
mentions the tagged opener inside a string field; the claimed fallback
to the raw level would succeed, but the code commits to the mangled
tagged extraction and fails. -/
theorem extraction_no_fallback_counterexample :
    summarizeParse "\x7b\"title\": \"x ```json y\"\x7d".data = none ∧
    jsonLoads "\x7b\"title\": \"x ```json y\"\x7d".data =
      some (.obj (.cons "title" (.str "x ```json y") .nil)) :=
  ⟨rfl, rfl⟩

/-- C5 (amended): the three provider response shapes yield the identical
parsed value for every MeetingSummary whose serialization contains no
fence marker; the counterexample shows the restriction is necessary. -/
theorem fence_shapes_agree_without_fences (m : MeetingSummary)
    (h : containsSub (encodeVal (dumpSummary m)) fence = false) :
    summarizeParse (encodeVal (dumpSummary m)) = some (dumpSummary m) ∧
    summarizeParse (wrapTagged (encodeVal (dumpSummary m))) = some (dumpSummary m) ∧
    summarizeParse (wrapPlain (encodeVal (dumpSummary m))) = some (dumpSummary m) := by
  have hload : jsonLoads (encodeVal (dumpSummary m)) = some (dumpSummary m) :=
    jsonLoads_encodeVal _ (numFreeV_dumpSummary m)
  have hstrip : pyStrip ('\n' :: (encodeVal (dumpSummary m) ++ ['\n']))
      = encodeVal (dumpSummary m) := by
    rw [encodeVal_dumpSummary_shape]
    exact pyStrip_sandwich _ '{' '}' (by decide) (by decide)
  refine ⟨?_, ?_, ?_⟩
  · rw [summarizeParse, extractResponse,
      not_containsSub_tagFence _ h, h]
    simpa using hload
  · rw [summarizeParse, extractResponse, containsSub_wrapTagged_tagFence]
    simp only [eq_self_iff_true, if_true]
    rw [taggedExtract_wrapTagged _ h, hstrip, hload]
  · rw [summarizeParse, extractResponse, not_containsSub_wrapPlain_tagFence _ h,
      containsSub_wrapPlain_fence]
    simp only [Bool.false_eq_true, if_false, eq_self_iff_true, if_true]
    rw [untaggedExtract_wrapPlain _ h, hstrip, hload]

/-- A summary whose title contains a fenced block, used to refute the
unrestricted three-shape agreement. -/
def summaryWithFencedTitle : MeetingSummary :=
  ⟨"```json 7 ```", "s", none, none, none, none, "t"⟩

/-- C5 counterexample: with a fence marker inside the title, the raw
shape parses to the JSON number 7 extracted from inside the title while
the tagged-fenced shape fails entirely, so the three shapes do not agree
on every MeetingSummary-shaped object. -/
theorem fence_shapes_disagree_on_fenced_title :
    summarizeParse (encodeVal (dumpSummary summaryWithFencedTitle)) = some (.num ['7']) ∧
    summarizeParse (wrapTagged (encodeVal (dumpSummary summaryWithFencedTitle))) = none ∧
    summarizeParse (encodeVal (dumpSummary summaryWithFencedTitle)) ≠
      summarizeParse (wrapTagged (encodeVal (dumpSummary summaryWithFencedTitle))) := by
  have h1 : summarizeParse (encodeVal (dumpSummary summaryWithFencedTitle))
      = some (.num ['7']) := rfl
  have h2 : summarizeParse (wrapTagged (encodeVal (dumpSummary summaryWithFencedTitle)))
      = none := rfl
  refine ⟨h1, h2, ?_⟩
  intro heq
  rw [h1, h2] at heq
  exact Option.noConfusion heq

/-- A fence-free summary exercising null and empty optional lists. -/
def plainSummary : MeetingSummary :=
  ⟨"Weekly sync", "Short notes", some [⟨some "Ana", none⟩], some [], none, none, "hello world"⟩

/-- Witness for the amended C5 statement at a concrete fence-free
summary. -/
theorem fence_shapes_agree_witness :
    containsSub (encodeVal (dumpSummary plainSummary)) fence = false ∧
    summarizeParse (wrapTagged (encodeVal (dumpSummary plainSummary)))
      = some (dumpSummary plainSummary) :=
  ⟨rfl, (fence_shapes_agree_without_fences plainSummary rfl).2.1⟩

/-!
The persistent record store of app/db.py: one row per transcript id, the
operations translated from create_transcript, update_transcript,
get_transcript, update_transcript_name and delete_transcript.  The SQL
UPDATE and DELETE touch every row whose id matches and report
rowcount > 0; the primary key makes the id unique in practice, and the
model keeps the general several-rows semantics.
-/

/-- One row of the transcripts table, schema of init_db. -/
structure DbRecord where
  created_at : String
  original_filename : String
  display_name : String
  model : String
  status : String
  transcript : Option String
  summary_json : Option String
  error : Option String
deriving DecidableEq

/-- The transcripts table as an association list keyed by id. -/
abbrev Store := List (String × DbRecord)

/-- db.create_transcript: one INSERT with display_name defaulting to the
original filename, empty payload columns, and the given status (always
processing at the call sites). -/
def create_transcript (st : Store) (id created_at original_filename model status : String) :
    Store :=
  (id, ⟨created_at, original_filename, original_filename, model, status, none, none, none⟩) :: st

/-- The SET clause of db.update_transcript applied to one row: only the
supplied fields are overwritten. -/
def applyUpdate (r : DbRecord) (status transcript summary_json error : Option String) :
    DbRecord :=
  { r with
    status := match status with | some s => s | none => r.status
    transcript := match transcript with | some t => some t | none => r.transcript
    summary_json := match summary_json with | some s => some s | none => r.summary_json
    error := match error with | some e => some e | none => r.error }

/-- db.update_transcript: with no field supplied return False before
touching the table; otherwise run one UPDATE on the rows whose id
matches and report whether any row matched. -/
def update_transcript (st : Store) (id : String)
    (status transcript summary_json error : Option String) : Bool × Store :=
  if status = none ∧ transcript = none ∧ summary_json = none ∧ error = none then (false, st)
  else
    (st.any (fun p => p.1 == id),
     st.map (fun p =>
       if p.1 = id then (p.1, applyUpdate p.2 status transcript summary_json error) else p))

/-- db.get_transcript: the row with the given id. -/
def get_transcript (st : Store) (id : String) : Option DbRecord :=
  (st.find? (fun p => p.1 == id)).map Prod.snd

/-- db.update_transcript_name: one UPDATE of display_name only. -/
def update_transcript_name (st : Store) (id new_name : String) : Bool × Store :=
  (st.any (fun p => p.1 == id),
   st.map (fun p => if p.1 = id then (p.1, { p.2 with display_name := new_name }) else p))

/-- db.delete_transcript: one DELETE, reporting whether a row matched. -/
def delete_transcript (st : Store) (id : String) : Bool × Store :=
  (st.any (fun p => p.1 == id), st.filter (fun p => !(p.1 == id)))

/-- Lookup after a key-preserving per-row rewrite of the table. -/
theorem get_transcript_map (st : Store) (f : DbRecord → DbRecord) (id i : String) :
    get_transcript (st.map fun p => if p.1 = id then (p.1, f p.2) else p) i
      = (get_transcript st i).map (fun r => if i = id then f r else r) := by
  induction st with
  | nil => rfl
  | cons p st ih =>
    simp only [List.map_cons, get_transcript, List.find?_cons] at *
    have hkey : (if p.1 = id then (p.1, f p.2) else p).1 = p.1 := by
      by_cases hpid : p.1 = id
      · rw [if_pos hpid]
      · rw [if_neg hpid]
    by_cases hpi : (p.1 == i) = true
    · have h1 : ((if p.1 = id then (p.1, f p.2) else p).1 == i) = true := by
        rw [hkey]; exact hpi
      rw [h1, hpi]
      simp only []
      have heq : p.1 = i := eq_of_beq hpi
      by_cases hpid : p.1 = id
      · rw [if_pos hpid]
        simp only [Option.map_some']
        rw [if_pos (heq ▸ hpid)]
      · rw [if_neg hpid]
        simp only [Option.map_some']
        rw [if_neg (fun hiid => hpid (heq.trans hiid))]
    · have hpif : (p.1 == i) = false := by
        cases hb : (p.1 == i) with
        | false => rfl
        | true => exact absurd hb hpi
      have h1f : ((if p.1 = id then (p.1, f p.2) else p).1 == i) = false := by
        rw [hkey]; exact hpif
      rw [h1f, hpif]
      simp only []
      exact ih



theorem map_no_key (st : Store) (id : String) (f : DbRecord → DbRecord)
    (h : ∀ p ∈ st, (p.1 == id) = false) :
    st.map (fun p => if p.1 = id then (p.1, f p.2) else p) = st := by
  induction st with
  | nil => rfl
  | cons p st ih =>
    have hp := h p (by simp)
    have hne : p.1 ≠ id := by
      intro he
      rw [he] at hp
      simp at hp
    simp only [List.map_cons, if_neg hne]
    rw [ih (fun q hq => h q (by simp [hq]))]

/-- C8: db.update_transcript writes only the fields supplied and leaves
every unsupplied field untouched, and rows with other ids untouched; a
rename via db.update_transcript_name leaves the transcript and summary
of every row unchanged. -/
theorem update_writes_only_supplied_fields :
    (∀ (st : Store) (id : String) (status transcript summary_json error : Option String)
      (i : String) (r2 : DbRecord),
      get_transcript (update_transcript st id status transcript summary_json error).2 i
        = some r2 →
      ∃ r, get_transcript st i = some r ∧
        (status = none → r2.status = r.status) ∧
        (transcript = none → r2.transcript = r.transcript) ∧
        (summary_json = none → r2.summary_json = r.summary_json) ∧
        (error = none → r2.error = r.error) ∧
        r2.created_at = r.created_at ∧
        r2.original_filename = r.original_filename ∧
        r2.display_name = r.display_name ∧
        r2.model = r.model ∧
        (i ≠ id → r2 = r)) ∧
    (∀ (st : Store) (id nm i : String),
      ((get_transcript (update_transcript_name st id nm).2 i).map DbRecord.transcript
        = (get_transcript st i).map DbRecord.transcript) ∧
      ((get_transcript (update_transcript_name st id nm).2 i).map DbRecord.summary_json
        = (get_transcript st i).map DbRecord.summary_json)) := by
  constructor
  · intro st id status transcript summary_json error i r2 h2
    by_cases hall : status = none ∧ transcript = none ∧ summary_json = none ∧ error = none
    · rw [update_transcript, if_pos hall] at h2
      exact ⟨r2, h2, fun _ => rfl, fun _ => rfl, fun _ => rfl, fun _ => rfl, rfl, rfl, rfl, rfl,
        fun _ => rfl⟩
    · rw [update_transcript, if_neg hall] at h2
      simp only [] at h2
      rw [get_transcript_map st
        (fun r => applyUpdate r status transcript summary_json error) id i] at h2
      cases hg : get_transcript st i with
      | none =>
        rw [hg] at h2
        exact absurd h2 (by simp)
      | some r =>
        rw [hg] at h2
        simp only [Option.map_some'] at h2
        by_cases hi : i = id
        · rw [if_pos hi] at h2
          have hr2 := (Option.some.inj h2).symm
          subst hr2
          refine ⟨_, rfl, ?_, ?_, ?_, ?_, rfl, rfl, rfl, rfl, fun hne => absurd hi hne⟩
          · intro hs; subst hs; rfl
          · intro hs; subst hs; rfl
          · intro hs; subst hs; rfl
          · intro hs; subst hs; rfl
        · rw [if_neg hi] at h2
          have hr2 := (Option.some.inj h2).symm
          subst hr2
          exact ⟨_, rfl, fun _ => rfl, fun _ => rfl, fun _ => rfl, fun _ => rfl, rfl, rfl, rfl,
            rfl, fun _ => rfl⟩
  · intro st id nm i
    have hmap : (update_transcript_name st id nm).2
        = st.map (fun p => if p.1 = id then (p.1, { p.2 with display_name := nm }) else p) := rfl
    constructor <;>
    · rw [hmap, get_transcript_map st (fun (r : DbRecord) => { r with display_name := nm }) id i]
      cases hg : get_transcript st i with
      | none => simp
      | some r =>
        by_cases hi : i = id <;> simp [hi]

/-- A sample completed row. -/
def sampleRecord : DbRecord :=
  ⟨"2024-01-01", "a.mp3", "a.mp3", "base", "completed", some "hi", some "sj", none⟩

/-- Witness for C8 at a one-row table: an update supplying only the
status overwrites only the status, and a rename leaves transcript and
summary unchanged. -/
theorem update_writes_only_witness :
    (∃ r, get_transcript [("a", sampleRecord)] "a" = some r ∧
      ((some "error" : Option String) = none →
        (applyUpdate sampleRecord (some "error") none none none).status = r.status) ∧
      ((none : Option String) = none →
        (applyUpdate sampleRecord (some "error") none none none).transcript = r.transcript) ∧
      ((none : Option String) = none →
        (applyUpdate sampleRecord (some "error") none none none).summary_json
          = r.summary_json) ∧
      ((none : Option String) = none →
        (applyUpdate sampleRecord (some "error") none none none).error = r.error) ∧
      (applyUpdate sampleRecord (some "error") none none none).created_at = r.created_at ∧
      (applyUpdate sampleRecord (some "error") none none none).original_filename
        = r.original_filename ∧
      (applyUpdate sampleRecord (some "error") none none none).display_name = r.display_name ∧
      (applyUpdate sampleRecord (some "error") none none none).model = r.model ∧
      ("a" ≠ "a" → applyUpdate sampleRecord (some "error") none none none = r)) ∧
    ((get_transcript (update_transcript_name [("a", sampleRecord)] "a" "new").2 "a").map
        DbRecord.transcript
      = (get_transcript [("a", sampleRecord)] "a").map DbRecord.transcript) :=
  ⟨update_writes_only_supplied_fields.1 [("a", sampleRecord)] "a" (some "error") none none none
      "a" (applyUpdate sampleRecord (some "error") none none none) rfl,
   (update_writes_only_supplied_fields.2 [("a", sampleRecord)] "a" "new" "a").1⟩

/-- C10: an update that supplies no field returns False and leaves the
table untouched even when the id exists, exactly as an update on an
unknown id does, so the False result does not distinguish the two. -/
theorem update_with_no_fields_returns_false (st : Store) (id : String) :
    update_transcript st id none none none none = (false, st) ∧
    (∀ (status transcript summary_json error : Option String),
      get_transcript st id = none →
      update_transcript st id status transcript summary_json error = (false, st)) := by
  constructor
  · rw [update_transcript, if_pos ⟨rfl, rfl, rfl, rfl⟩]
  · intro status transcript summary_json error hg
    have hnone : ∀ p ∈ st, (p.1 == id) = false := by
      intro p hp
      cases hb : (p.1 == id) with
      | false => rfl
      | true =>
        exfalso
        rw [get_transcript] at hg
        have : st.find? (fun q => q.1 == id) = none := by
          cases hf : st.find? (fun q => q.1 == id) with
          | none => rfl
          | some q => rw [hf] at hg; exact Option.noConfusion hg
        have := List.find?_eq_none.1 this p hp
        rw [hb] at this
        exact absurd rfl this
    by_cases hall : status = none ∧ transcript = none ∧ summary_json = none ∧ error = none
    · rw [update_transcript, if_pos hall]
    · rw [update_transcript, if_neg hall]
      have hany : st.any (fun p => p.1 == id) = false := by
        cases ha : st.any (fun p => p.1 == id) with
        | false => rfl
        | true =>
          exfalso
          obtain ⟨p, hp, hpb⟩ := List.any_eq_true.1 ha
          rw [hnone p hp] at hpb
          exact Bool.noConfusion hpb
      rw [hany, map_no_key st id (fun r => applyUpdate r status transcript summary_json error) hnone]

/-- Witness for C10 at a one-row table and an absent id. -/
theorem update_with_no_fields_witness :
    update_transcript [("a", sampleRecord)] "a" none none none none
      = (false, [("a", sampleRecord)]) ∧
    update_transcript [("a", sampleRecord)] "b" (some "s") none none none
      = (false, [("a", sampleRecord)]) :=
  ⟨(update_with_no_fields_returns_false [("a", sampleRecord)] "a").1,
   (update_with_no_fields_returns_false [("a", sampleRecord)] "b").2
     (some "s") none none none rfl⟩



/-- Transport-level result of a route: a payload or an HTTP error
raised via HTTPException. -/
inductive RouteResult (α : Type) where
  | ok (a : α)
  | httpError (code : Nat) (detail : String)
deriving DecidableEq

/-- app/models/schemas.py ProcessingResponse. -/
structure ProcessingResponse where
  status : String
  data : Option MeetingSummary
  error : Option String
deriving DecidableEq

/-- The field dictionary summarize_meeting extracts from the provider,
one entry per MeetingSummary field except the transcript. -/
structure SummaryFields where
  title : String
  summary : String
  participants : Option (List Participant)
  key_points : Option (List String)
  decisions : Option (List Decision)
  action_items : Option (List ActionItem)
deriving DecidableEq

/-- MeetingSummary(**summary_dict, transcript=transcript). -/
def mkSummary (f : SummaryFields) (transcript : String) : MeetingSummary :=
  ⟨f.title, f.summary, f.participants, f.key_points, f.decisions, f.action_items, transcript⟩

/-- json.dumps(summary.model_dump()) as stored in the summary_json
column. -/
def summaryJson (m : MeetingSummary) : String := String.mk (encodeVal (dumpSummary m))

/-- summarize_existing_transcript of app/main.py, lines 301-326: look the
record up, reject a missing or empty transcript with a 400 before the
summarizer runs, then re-summarize and write status completed plus the
new summary JSON.  The summarization call is abstracted by its outcome;
the third component records whether it was invoked. -/
def summarize_existing_transcript (st : Store) (id : String)
    (smRes : Except String SummaryFields) :
    RouteResult ProcessingResponse × Store × Bool :=
  match get_transcript st id with
  | none => (.httpError 404 "Transcript not found", st, false)
  | some record =>
    match record.transcript with
    | none => (.httpError 400 "No transcript text available", st, false)
    | some transcript_text =>
      if transcript_text = "" then (.httpError 400 "No transcript text available", st, false)
      else
        match smRes with
        | .error e => (.ok ⟨"error", none, some e⟩, st, true)
        | .ok fields =>
          let summary := mkSummary fields transcript_text
          let st2 := (update_transcript st id (some "completed") none
            (some (summaryJson summary)) none).2
          (.ok ⟨"success", some summary, none⟩, st2, true)

/-- C6: re-summarization of a record whose transcript is missing or
empty answers with the 400 validation error, never invokes the
summarization adapter, and leaves the store, in particular the record
and its status, exactly as it was. -/
theorem resummarize_missing_transcript_validation_error (st : Store) (id : String)
    (smRes : Except String SummaryFields) (r : DbRecord)
    (hget : get_transcript st id = some r)
    (htr : r.transcript = none ∨ r.transcript = some "") :
    summarize_existing_transcript st id smRes
      = (.httpError 400 "No transcript text available", st, false) := by
  rw [summarize_existing_transcript, hget]
  simp only []
  rcases htr with h | h <;> (rw [h]; try simp)

/-- A failed record without transcript text. -/
def noTranscriptRecord : DbRecord :=
  ⟨"2024-01-01", "f.mp3", "f.mp3", "base", "error", none, none, some "boom"⟩

/-- Witness for C6 at a concrete one-row store. -/
theorem resummarize_missing_transcript_witness :
    get_transcript [("a", noTranscriptRecord)] "a" = some noTranscriptRecord ∧
    summarize_existing_transcript [("a", noTranscriptRecord)] "a" (.error "e")
      = (.httpError 400 "No transcript text available", [("a", noTranscriptRecord)], false) :=
  ⟨rfl, resummarize_missing_transcript_validation_error [("a", noTranscriptRecord)] "a"
    (.error "e") noTranscriptRecord rfl (Or.inl rfl)⟩



/-!
Per-record write protocol of app/main.py.  A record id is created once
with status processing, then its single pipeline run either completes
it (one update writing status completed together with the transcript
and summary) or fails it (one update writing status error and the
message); afterwards the only writes that can target it are renames
from the PATCH route and successful re-summarizations, which write the
summary and status completed.  The lifecycle below enumerates exactly
these write shapes.
-/

/-- Creation state of a row, as create_transcript inserts it. -/
def initRecord (created filename model : String) : DbRecord :=
  ⟨created, filename, filename, model, "processing", none, none, none⟩

/-- Outcome of the record's one pipeline run. -/
inductive RunOutcome where
  | pending
  | completed (transcript sj : String)
  | failed (msg : String)

/-- The pipeline-run update applied to the created row. -/
def afterOutcome (r : DbRecord) : RunOutcome → DbRecord
  | .pending => r
  | .completed t sj =>
    { r with status := "completed", transcript := some t, summary_json := some sj }
  | .failed m => { r with status := "error", error := some m }

/-- Writes that can reach a record after its run. -/
inductive PostOp where
  | rename (nm : String)
  | resummarized (sj : String)

/-- Effect of one post-run write. -/
def applyPost (r : DbRecord) : PostOp → DbRecord
  | .rename nm => { r with display_name := nm }
  | .resummarized sj => { r with status := "completed", summary_json := some sj }

/-- Any record state the application writes can produce for one id. -/
def reachableRecord (created filename model : String) (oc : RunOutcome)
    (posts : List PostOp) : DbRecord :=
  posts.foldl applyPost (afterOutcome (initRecord created filename model) oc)

/-- The reachability invariant: a non-empty transcript only ever exists
on a record whose status is completed. -/
theorem reachable_transcript_completed (created filename model : String) (oc : RunOutcome)
    (posts : List PostOp) (t : String)
    (ht : (reachableRecord created filename model oc posts).transcript = some t)
    (hne : t ≠ "") :
    (reachableRecord created filename model oc posts).status = "completed" := by
  rw [reachableRecord] at *
  have hbase : ∀ r : DbRecord,
      (∀ u : String, r.transcript = some u → u ≠ "" → r.status = "completed") →
      ∀ ps : List PostOp,
      (∀ u : String, (ps.foldl applyPost r).transcript = some u → u ≠ "" →
        (ps.foldl applyPost r).status = "completed") := by
    intro r hr ps
    induction ps generalizing r with
    | nil => exact hr
    | cons p ps ih =>
      intro u hu hune
      rw [List.foldl_cons] at hu ⊢
      refine ih (applyPost r p) ?_ u hu hune
      intro w hw hwne
      cases p with
      | rename nm => exact hr w hw hwne
      | resummarized sj => rfl
  refine hbase (afterOutcome (initRecord created filename model) oc) ?_ posts t ht hne
  intro u hu hune
  cases oc with
  | pending => exact absurd hu (by simp [afterOutcome, initRecord])
  | completed t2 sj => rfl
  | failed m => exact absurd hu (by simp [afterOutcome, initRecord])

/-- C7: a successful re-summarization of a reachable record with
non-empty transcript changes only the summary field of the stored row:
the row afterwards is literally the old row with summary_json replaced,
so status, transcript, display_name, error and every other field are
unchanged, and the route answers success with the new summary. -/
theorem resummarize_updates_only_summary (created filename model : String)
    (oc : RunOutcome) (posts : List PostOp) (id : String) (fields : SummaryFields)
    (t : String)
    (hr : (reachableRecord created filename model oc posts).transcript = some t)
    (ht : t ≠ "") :
    summarize_existing_transcript [(id, reachableRecord created filename model oc posts)]
        id (.ok fields)
      = (.ok ⟨"success", some (mkSummary fields t), none⟩,
         [(id, { reachableRecord created filename model oc posts with
                 summary_json := some (summaryJson (mkSummary fields t)) })],
         true) := by
  have hst := reachable_transcript_completed created filename model oc posts t hr ht
  set r := reachableRecord created filename model oc posts with hrdef
  have hget : get_transcript [(id, r)] id = some r := by
    rw [get_transcript]
    simp [List.find?]
  rw [summarize_existing_transcript, hget]
  try simp only []
  rw [hr]
  try simp only []
  rw [if_neg ht]
  try simp only []
  have hupd : (update_transcript [(id, r)] id (some "completed") none
      (some (summaryJson (mkSummary fields t))) none).2
      = [(id, { r with summary_json := some (summaryJson (mkSummary fields t)) })] := by
    rw [update_transcript, if_neg (by simp)]
    simp only [List.map_cons, List.map_nil, if_pos rfl]
    have happ : applyUpdate r (some "completed") none
        (some (summaryJson (mkSummary fields t))) none
        = { r with summary_json := some (summaryJson (mkSummary fields t)) } := by
      rw [applyUpdate]
      try simp only []
      rw [show "completed" = r.status from hst.symm]
    rw [happ]
    simp
  rw [hupd, hr]

/-- Witness for C7 at a concrete completed record. -/
theorem resummarize_updates_only_summary_witness :
    (reachableRecord "2024" "f.mp3" "base" (.completed "hello" "sj") []).transcript
      = some "hello" ∧
    summarize_existing_transcript
        [("a", reachableRecord "2024" "f.mp3" "base" (.completed "hello" "sj") [])] "a"
        (.ok ⟨"T", "S", none, none, none, none⟩)
      = (.ok ⟨"success", some (mkSummary ⟨"T", "S", none, none, none, none⟩ "hello"), none⟩,
         [("a", { (reachableRecord "2024" "f.mp3" "base" (.completed "hello" "sj") []) with
                  summary_json := some (summaryJson
                    (mkSummary ⟨"T", "S", none, none, none, none⟩ "hello")) })],
         true) :=
  ⟨rfl, resummarize_updates_only_summary "2024" "f.mp3" "base" (.completed "hello" "sj") []
    "a" ⟨"T", "S", none, none, none, none⟩ "hello" rfl (by decide)⟩


/-- transcribe_audio of app/services/transcription.py: the segment texts
joined with single spaces and stripped. -/
def assembleTranscript (segs : List String) : String :=
  String.mk (pyStrip (String.intercalate " " segs).data)

/-- process_meeting of app/main.py lines 133-188: create the record with
status processing, then transcribe, optionally summarize, persist the
terminal state, and answer; any exception of a stage is caught, written
to the record as status error, and answered as an error response. -/
def process_meeting (st : Store) (id created filename model : String)
    (trRes : Except String (List String)) (summarize : Bool)
    (smRes : Except String SummaryFields) : ProcessingResponse × Store :=
  let st1 := create_transcript st id created filename model "processing"
  match trRes with
  | .error e =>
    (⟨"error", none, some e⟩, (update_transcript st1 id (some "error") none none (some e)).2)
  | .ok segs =>
    let transcript := assembleTranscript segs
    let afterSummary : Except String MeetingSummary :=
      if summarize then
        match smRes with
        | .error e => .error e
        | .ok fields => .ok (mkSummary fields transcript)
      else .ok ⟨"Transcription", "", none, none, none, none, transcript⟩
    match afterSummary with
    | .error e =>
      (⟨"error", none, some e⟩, (update_transcript st1 id (some "error") none none (some e)).2)
    | .ok summary =>
      (⟨"success", some summary, none⟩,
       (update_transcript st1 id (some "completed") (some transcript)
         (some (summaryJson summary)) none).2)

/-- The row the success path of a run leaves behind. -/
theorem get_after_success_update (st : Store) (id created filename model tr sj : String) :
    get_transcript (update_transcript
        (create_transcript st id created filename model "processing")
        id (some "completed") (some tr) (some sj) none).2 id
      = some { initRecord created filename model with
               status := "completed", transcript := some tr, summary_json := some sj } := by
  rw [update_transcript, if_neg (by simp)]
  simp only []
  rw [get_transcript_map _
    (fun r => applyUpdate r (some "completed") (some tr) (some sj) none) id id]
  have hget1 : get_transcript (create_transcript st id created filename model "processing") id
      = some (initRecord created filename model) := by
    rw [create_transcript, get_transcript, List.find?_cons]
    simp [initRecord]
  rw [hget1]
  simp only [Option.map_some']
  rw [if_pos trivial]
  rfl

/-- C4 (amended): whenever the synchronous run answers success, the
returned summary carries the trimmed space-joined engine segments as its
transcript, possibly empty, and the record persisted for the run shows
status completed with exactly that transcript. -/
theorem process_meeting_success_persists_matching_transcript
    (st : Store) (id created filename model : String)
    (trRes : Except String (List String)) (summarize : Bool)
    (smRes : Except String SummaryFields)
    (hs : (process_meeting st id created filename model trRes summarize smRes).1.status
      = "success") :
    ∃ segs m,
      trRes = .ok segs ∧
      (process_meeting st id created filename model trRes summarize smRes).1.data = some m ∧
      m.transcript = assembleTranscript segs ∧
      ∃ r, get_transcript
          (process_meeting st id created filename model trRes summarize smRes).2 id
          = some r ∧
        r.status = "completed" ∧ r.transcript = some m.transcript := by
  cases trRes with
  | error e =>
    exfalso
    rw [process_meeting.eq_def] at hs
    simp at hs
  | ok segs =>
    by_cases hsum : summarize = true
    · cases smRes with
      | error e =>
        exfalso
        rw [process_meeting.eq_def] at hs
        simp [hsum] at hs
      | ok fields =>
        refine ⟨segs, mkSummary fields (assembleTranscript segs), rfl, ?_, rfl, ?_⟩
        · rw [process_meeting.eq_def]
          simp [hsum]
        · rw [process_meeting.eq_def]
          simp only [hsum, if_true]
          refine ⟨_, get_after_success_update st id created filename model
            (assembleTranscript segs) (summaryJson (mkSummary fields (assembleTranscript segs))),
            rfl, rfl⟩
    · refine ⟨segs, ⟨"Transcription", "", none, none, none, none, assembleTranscript segs⟩,
        rfl, ?_, rfl, ?_⟩
      · rw [process_meeting.eq_def]
        simp [hsum]
      · rw [process_meeting.eq_def]
        simp only [hsum, if_false]
        refine ⟨_, get_after_success_update st id created filename model
          (assembleTranscript segs)
          (summaryJson ⟨"Transcription", "", none, none, none, none, assembleTranscript segs⟩),
          rfl, rfl⟩

/-- Witness for the amended C4 at a one-segment transcription without
summarization. -/
theorem process_meeting_success_witness :
    ∃ segs m,
      (.ok ["hello"] : Except String (List String)) = .ok segs ∧
      (process_meeting [] "id0" "2024" "f.mp3" "base" (.ok ["hello"]) false
        (.error "unused")).1.data = some m ∧
      m.transcript = assembleTranscript segs ∧
      ∃ r, get_transcript
          (process_meeting [] "id0" "2024" "f.mp3" "base" (.ok ["hello"]) false
            (.error "unused")).2 "id0"
          = some r ∧
        r.status = "completed" ∧ r.transcript = some m.transcript :=
  process_meeting_success_persists_matching_transcript [] "id0" "2024" "f.mp3" "base"
    (.ok ["hello"]) false (.error "unused") rfl

/-- C4 counterexample: an engine run with no segments is answered as a
success whose transcript is the empty string, refuting the non-empty
transcript part of the claim. -/
theorem process_meeting_empty_segments_success :
    (process_meeting [] "id0" "2024" "f.mp3" "base" (.ok []) false (.error "unused")).1.status
      = "success" ∧
    ((process_meeting [] "id0" "2024" "f.mp3" "base" (.ok []) false
        (.error "unused")).1.data).map MeetingSummary.transcript = some "" :=
  ⟨rfl, rfl⟩



/-- One status write of _run_transcription_job of app/main.py lines 81-117:
the list of statuses the run stores into the job entry after the initial
processing write, paired with whether an exception escapes the handler.
trRes is the outcome of transcribe_audio, smRes the outcome of
summarize_meeting, and the two raise flags say whether the respective
db.update_transcript call throws. -/
def runTranscriptionJobWrites (trRes : Except String String) (summarize : Bool)
    (smRes : Except String SummaryFields) (dbId : Option String)
    (dbCompletedRaises dbErrorRaises : Bool) : List String × Bool :=
  let exceptPath : List String × Bool := (["error"], dbId.isSome && dbErrorRaises)
  let successPath : List String × Bool :=
    if dbId.isSome && dbCompletedRaises then
      ("success" :: exceptPath.1, exceptPath.2)
    else (["success"], false)
  match trRes with
  | .error _ => exceptPath
  | .ok _ =>
    if summarize then
      match smRes with
      | .error _ => exceptPath
      | .ok _ => successPath
    else successPath

/-- The job status trace of a run: the processing write of
start_transcription followed by the writes of the background task. -/
def jobStatusTrace (trRes : Except String String) (summarize : Bool)
    (smRes : Except String SummaryFields) (dbId : Option String)
    (dbCompletedRaises dbErrorRaises : Bool) : List String :=
  "processing" :: (runTranscriptionJobWrites trRes summarize smRes dbId
    dbCompletedRaises dbErrorRaises).1

/-- C2 (amended): the terminal writes of a run are exactly one of success,
error, or success followed by error, and the double write occurs only
when a database id was supplied and the completed-update raised after the
job was already marked success. -/
theorem job_status_trace_characterization (trRes : Except String String)
    (summarize : Bool) (smRes : Except String SummaryFields) (dbId : Option String)
    (dbCompletedRaises dbErrorRaises : Bool) :
    (runTranscriptionJobWrites trRes summarize smRes dbId
        dbCompletedRaises dbErrorRaises).1 = ["success"] ∨
    (runTranscriptionJobWrites trRes summarize smRes dbId
        dbCompletedRaises dbErrorRaises).1 = ["error"] ∨
    ((runTranscriptionJobWrites trRes summarize smRes dbId
        dbCompletedRaises dbErrorRaises).1 = ["success", "error"] ∧
      dbId.isSome = true ∧ dbCompletedRaises = true) := by
  cases trRes <;> cases smRes <;> cases dbId <;> cases summarize <;>
    cases dbCompletedRaises <;> cases dbErrorRaises <;>
      simp [runTranscriptionJobWrites]

/-- C2 counterexample: a run whose transcription succeeds and whose
completed-database update raises first marks the job success and then
overwrites the terminal status with error, so the status trace holds two
distinct terminal values. -/
theorem job_terminal_status_overwritten :
    jobStatusTrace (.ok "hello") false (.error "unused") (some "db1") true false
      = ["processing", "success", "error"] := rfl



/-- Position of one caller inside _get_model of
app/services/transcription.py lines 14-22: before the membership test,
past a failed test but before the load assignment, or finished. -/
inductive CachePc | start | loading | done
deriving DecidableEq, Repr

/-- The module state of transcription.py: the keys present in _models,
an instrumentation counter of executed WhisperModel loads, and the
position of every caller. -/
structure CacheState where
  cached : List String
  loads : Nat
  pcs : List CachePc
deriving DecidableEq, Repr

/-- One interleaved step of caller i in _get_model: the membership test
`model_name not in _models` and the load-and-insert are separate steps
with no lock between them, exactly as in the source. -/
def cacheStep (key : String) (st : CacheState) (i : Nat) : CacheState :=
  match st.pcs.get? i with
  | some CachePc.start =>
    if key ∈ st.cached then { st with pcs := st.pcs.set i CachePc.done }
    else { st with pcs := st.pcs.set i CachePc.loading }
  | some CachePc.loading =>
    { cached := key :: st.cached, loads := st.loads + 1, pcs := st.pcs.set i CachePc.done }
  | _ => st

/-- n callers of _get_model on the same key, interleaved by a scheduler. -/
def cacheRun (key : String) (n : Nat) (sched : List Nat) : CacheState :=
  sched.foldl (cacheStep key) ⟨[], 0, List.replicate n CachePc.start⟩

/-- C1: the check-then-insert of _get_model is unguarded, so two callers
racing on a not-yet-loaded model can both pass the membership test and
both execute the load: the schedule check, check, load, load ends with
both callers done and the load counter at two, where the claim demands
exactly one; a serial schedule does give a single load. -/
theorem getModel_unguarded_race_two_loads :
    (cacheRun "base" 2 [0, 1, 0, 1]).loads = 2 ∧
    (∀ pc ∈ (cacheRun "base" 2 [0, 1, 0, 1]).pcs, pc = CachePc.done) ∧
    (cacheRun "base" 2 [0, 0, 1]).loads = 1 := by decide


end MeetingSummarizer
